import Mathlib

/-! # uutils: the lazy sequence pipeline of `uutils/data_processing.h`

A shallow embedding of the views (`TRange`, `TMap`, `TFilter`, `TSkip`, `TTake`,
`TReverse`, `TEnumerate`), of the terminal consumers (`to_vector_impl`, `sum_impl`,
`all_impl`, `any_impl`, `none_impl`) and of the chaining operator, followed by the
properties proved about them.

Modelling decisions.

* A view is a record of the six things the header uses of a range: `begin()`, `end()`
  and, on its iterator, `operator*`, `operator++`, `operator--`, `operator!=`.
* A source container is a list; its iterators are integer offsets from its first
  element, `0` for `begin` and `length` for `end`.  Reading at an offset that holds no
  element and stepping past `end` are the outcome `undefined`.  Stepping back is plain
  pointer arithmetic and always gives the previous offset: from `begin` it gives offset
  `-1`, the one-before-begin position `TReverse::end()` uses as its sentinel.
* Loops whose termination depends on the upstream view run on fuel; running out is the
  outcome `outOfFuel`, distinct from `undefined`.
* `int` is `Int` reduced to 32 bits in two's complement by `wrapInt`.

The fixed-capacity vector of `uutils/static_vector.h` follows the pipeline: its storage is
a list of slots, each holding an object or none, and its member functions return the new
state of the vector together with a value or the exception thrown.
-/

namespace uutils.data_processing

/-- Outcome of running a piece of the pipeline: a value, a step that C++ leaves
undefined, or a loop that did not finish within the fuel it was given. -/
inductive Outcome (α : Type) where
  | ok (a : α)
  | undefined
  | outOfFuel
  deriving DecidableEq, Repr

namespace Outcome

/-- Sequencing: the first outcome that is not a value is the outcome of the whole. -/
def bind {α β : Type} : Outcome α → (α → Outcome β) → Outcome β
  | ok a, f => f a
  | undefined, _ => undefined
  | outOfFuel, _ => outOfFuel

/-- Apply a function to the value of an outcome. -/
def map {α β : Type} (f : α → β) : Outcome α → Outcome β
  | ok a => ok (f a)
  | undefined => undefined
  | outOfFuel => outOfFuel

end Outcome

/-- What the header uses of a range type: `begin()` and `end()` (which may run loops,
as the constructor of `TFilter::Iterator` does) and the four operators of its iterator
type.  `σ` is the iterator type, `α` the type of `*it`. -/
structure View (σ α : Type) where
  /-- The result of `begin()`. -/
  begin : Outcome σ
  /-- The result of `end()`. -/
  end_ : Outcome σ
  /-- The iterator's `operator*`. -/
  deref : σ → Outcome α
  /-- The iterator's `operator++`. -/
  inc : σ → Outcome σ
  /-- The iterator's `operator--`. -/
  dec : σ → Outcome σ
  /-- The iterator's `operator!=`. -/
  ne : σ → σ → Bool

/-- Model of `std::begin(iterable)`: the container is a list and its iterators are
integer offsets from its first element; the first is offset `0`. -/
def std_begin {α : Type} (_iterable : List α) : Int := 0

/-- Model of `std::end(iterable)`: the offset one past the last element. -/
def std_end {α : Type} (iterable : List α) : Int := iterable.length

/-- Source function `Range::from(iterable)`: the `TRange` holding `std::begin(iterable)` and
`std::end(iterable)`, with the operators of the container's iterators.  Only the offsets
`0 .. length - 1` can be read and only offsets below `length` can be incremented.
Decrementing is the pointer arithmetic of the compiled iterator, with no check: it
gives the previous offset, also from offset `0`, where it gives the one-before-begin
offset `-1`. -/
def Range.from {α : Type} (iterable : List α) : View Int α where
  begin := .ok (std_begin iterable)
  end_ := .ok (std_end iterable)
  deref := fun it =>
    if 0 ≤ it then
      match iterable[it.toNat]? with
      | some x => .ok x
      | none => .undefined
    else .undefined
  inc := fun it => if it < iterable.length then .ok (it + 1) else .undefined
  dec := fun it => .ok (it - 1)
  ne := fun it other => it != other

namespace detail

/-- The range-based `for (auto&& item : range) body`, from the iterator `it` on:
`for (; it != end; ++it) { auto&& item = *it; body }`.  The body updates the loop
state `β` and may leave the enclosing function with a `return` (`some r`). -/
def rangeFor {σ α β ρ : Type} (range : View σ α) (body : α → β → Option ρ × β) (e : σ) :
    Nat → σ → β → Outcome (Option ρ × β)
  | 0, _, _ => .outOfFuel
  | fuel + 1, it, s =>
    if range.ne it e then
      (range.deref it).bind fun item =>
        match body item s with
        | (some r, s1) => .ok (some r, s1)
        | (none, s1) => (range.inc it).bind fun it1 => rangeFor range body e fuel it1 s1
    else .ok (none, s)

/-- The whole range-based for statement: `begin()` and `end()` are evaluated once, in
this order, then the loop runs. -/
def forEach {σ α β ρ : Type} (fuel : Nat) (range : View σ α) (body : α → β → Option ρ × β)
    (s : β) : Outcome (Option ρ × β) :=
  range.begin.bind fun b => range.end_.bind fun e => rangeFor range body e fuel b s

/-- Class `TMap<TRange, Func>`: dereferencing applies `func`, everything else is the
upstream iterator's. -/
def TMap {σ α β : Type} (range : View σ α) (func : α → β) : View σ β where
  begin := range.begin
  end_ := range.end_
  deref := fun it => (range.deref it).map func
  inc := range.inc
  dec := range.dec
  ne := range.ne

/-- Function `map_impl`. -/
def map_impl {σ α β : Type} (range : View σ α) (func : α → β) : View σ β :=
  TMap range func

/-- The data members of `TFilter::Iterator` (`_func` is shared by all iterators of a
view and is kept by the view). -/
structure TFilter.Iterator (σ : Type) where
  /-- The member `_it`. -/
  it : σ
  /-- The member `_end`. -/
  end_ : σ
  /-- The member `_begin`. -/
  begin : σ
  deriving DecidableEq, Repr

/-- Method `TFilter::Iterator::advance`: `while (_it != _end && !_func(*_it)) ++_it;`. -/
def TFilter.advance {σ α : Type} (range : View σ α) (func : α → Bool) :
    Nat → TFilter.Iterator σ → Outcome (TFilter.Iterator σ)
  | 0, _ => .outOfFuel
  | fuel + 1, self =>
    if range.ne self.it self.end_ then
      (range.deref self.it).bind fun x =>
        if !func x then
          (range.inc self.it).bind fun it1 =>
            TFilter.advance range func fuel { self with it := it1 }
        else .ok self
    else .ok self

/-- Method `TFilter::Iterator::reverse`: `while (_it != _begin && !_func(*_it)) --_it;`. -/
def TFilter.reverse {σ α : Type} (range : View σ α) (func : α → Bool) :
    Nat → TFilter.Iterator σ → Outcome (TFilter.Iterator σ)
  | 0, _ => .outOfFuel
  | fuel + 1, self =>
    if range.ne self.it self.begin then
      (range.deref self.it).bind fun x =>
        if !func x then
          (range.dec self.it).bind fun it1 =>
            TFilter.reverse range func fuel { self with it := it1 }
        else .ok self
    else .ok self

/-- Class `TFilter<TRange, Func>`.  The constructor of its iterator runs `advance()`;
`operator++` is `++_it; advance();`, `operator--` is `reverse();`, and `operator!=`
compares the `_it` members only. -/
def TFilter {σ α : Type} (fuel : Nat) (range : View σ α) (func : α → Bool) :
    View (TFilter.Iterator σ) α where
  begin := range.begin.bind fun b => range.end_.bind fun e =>
    TFilter.advance range func fuel ⟨b, e, b⟩
  end_ := range.end_.bind fun e => range.begin.bind fun b =>
    TFilter.advance range func fuel ⟨e, e, b⟩
  deref := fun self => range.deref self.it
  inc := fun self => (range.inc self.it).bind fun it1 =>
    TFilter.advance range func fuel { self with it := it1 }
  dec := fun self => TFilter.reverse range func fuel self
  ne := fun self other => range.ne self.it other.it

/-- Function `filter_impl`. -/
def filter_impl {σ α : Type} (fuel : Nat) (range : View σ α) (pred : α → Bool) :
    View (TFilter.Iterator σ) α :=
  TFilter fuel range pred

/-- The constructor shared, word for word, by `TSkip::Iterator` and `TTake::Iterator`:
`for (TNumber i = 0; _it != end && i < n; i++) ++_it;`.  The first argument is the
number of values `i` can still take below `n`. -/
def advanceUpTo {σ α : Type} (range : View σ α) (e : σ) : Nat → σ → Outcome σ
  | 0, it => .ok it
  | k + 1, it => if range.ne it e then (range.inc it).bind (advanceUpTo range e k) else .ok it

/-- Constructor `TSkip::Iterator(it, end, skip)`; `i < skip` holds for `skip.toNat` values of `i`. -/
def TSkip.Iterator {σ α : Type} (range : View σ α) (it e : σ) (skip : Int) : Outcome σ :=
  advanceUpTo range e skip.toNat it

/-- Class `TSkip<TRange, TNumber>`: `begin()` is `Iterator(_range.begin(), _range.end(),
_skip)`, `end()` is `Iterator(_range.end(), _range.end(), 0)`. -/
def TSkip {σ α : Type} (range : View σ α) (skip : Int) : View σ α where
  begin := range.begin.bind fun b => range.end_.bind fun e => TSkip.Iterator range b e skip
  end_ := range.end_.bind fun e => TSkip.Iterator range e e 0
  deref := range.deref
  inc := range.inc
  dec := range.dec
  ne := range.ne

/-- Function `skip_impl`. -/
def skip_impl {σ α : Type} (range : View σ α) (skip : Int) : View σ α :=
  TSkip range skip

/-- Constructor `TTake::Iterator(it, end, amount)`. -/
def TTake.Iterator {σ α : Type} (range : View σ α) (it e : σ) (amount : Int) : Outcome σ :=
  advanceUpTo range e amount.toNat it

/-- Class `TTake<TRange, TNumber>`: `begin()` is `Iterator(_range.begin(), _range.end(),
0)`, `end()` is `Iterator(_range.begin(), _range.end(), _amount)`. -/
def TTake {σ α : Type} (range : View σ α) (amount : Int) : View σ α where
  begin := range.begin.bind fun b => range.end_.bind fun e => TTake.Iterator range b e 0
  end_ := range.begin.bind fun b => range.end_.bind fun e => TTake.Iterator range b e amount
  deref := range.deref
  inc := range.inc
  dec := range.dec
  ne := range.ne

/-- Function `take_impl`. -/
def take_impl {σ α : Type} (range : View σ α) (amount : Int) : View σ α :=
  TTake range amount

/-- Class `TReverse<TRange>`: `begin()` is `--_range.end()`, `end()` is `--_range.begin()`,
`operator++` steps the upstream iterator back and `operator--` steps it forward. -/
def TReverse {σ α : Type} (range : View σ α) : View σ α where
  begin := range.end_.bind range.dec
  end_ := range.begin.bind range.dec
  deref := range.deref
  inc := range.dec
  dec := range.inc
  ne := range.ne

/-- Function `reverse_impl`. -/
def reverse_impl {σ α : Type} (range : View σ α) : View σ α :=
  TReverse range

end detail

/-- Smallest value of `int`. -/
def INT_MIN : Int := -2147483648

/-- Largest value of `int`. -/
def INT_MAX : Int := 2147483647

/-- Reduction of an integer to the 32-bit two's complement value `int` holds. -/
def wrapInt (x : Int) : Int := (x + 2147483648) % 4294967296 - 2147483648

/-- Addition (`operator+`, `+=`) of `int`. -/
def int_add (a b : Int) : Int := wrapInt (a + b)

namespace detail

/-- Class `TEnumerate<int>`: an iterator is the number itself. -/
def TEnumerate (min_ max_ : Int) : View Int Int where
  begin := .ok min_
  end_ := .ok max_
  deref := fun it => .ok it
  inc := fun it => .ok (wrapInt (it + 1))
  dec := fun it => .ok (wrapInt (it - 1))
  ne := fun it other => it != other

/-- Function `to_vector_impl`: `for (auto&& item : range) result.push_back(item); return result;`. -/
def to_vector_impl {σ α : Type} (fuel : Nat) (range : View σ α) : Outcome (List α) :=
  (forEach fuel range (fun item result => ((none : Option Empty), result ++ [item])) []).map
    fun r => r.2

/-- Function `sum_impl`: `auto sum = T(0); for (auto&& item : range) sum += item; return sum;`,
with the element type's zero and addition as parameters. -/
def sum_impl {σ α : Type} (fuel : Nat) (range : View σ α) (zero : α) (add : α → α → α) :
    Outcome α :=
  (forEach fuel range (fun item sum => ((none : Option Empty), add sum item)) zero).map
    fun r => r.2

/-- The result of a loop that returns `r` from its body and `dflt` after it. -/
def returned {ρ τ : Type} (dflt : ρ) : Option ρ × τ → ρ × τ
  | (some r, s) => (r, s)
  | (none, s) => (dflt, s)

/-- Function `all_impl`: `for (auto&& item : range) if (!pred(item)) return false; return true;`.
The predicate may have effects: it reads and updates a state `τ`, which is returned
with the result. -/
def all_impl {σ α τ : Type} (fuel : Nat) (range : View σ α) (pred : α → τ → Bool × τ)
    (s : τ) : Outcome (Bool × τ) :=
  (forEach fuel range
    (fun item s => match pred item s with
      | (true, s1) => (none, s1)
      | (false, s1) => (some false, s1)) s).map (returned true)

/-- Function `any_impl`: `for (auto&& item : range) if (pred(item)) return true; return false;`. -/
def any_impl {σ α τ : Type} (fuel : Nat) (range : View σ α) (pred : α → τ → Bool × τ)
    (s : τ) : Outcome (Bool × τ) :=
  (forEach fuel range
    (fun item s => match pred item s with
      | (true, s1) => (some true, s1)
      | (false, s1) => (none, s1)) s).map (returned false)

/-- Function `none_impl`: `for (auto&& item : range) if (pred(item)) return false; return true;`. -/
def none_impl {σ α τ : Type} (fuel : Nat) (range : View σ α) (pred : α → τ → Bool × τ)
    (s : τ) : Outcome (Bool × τ) :=
  (forEach fuel range
    (fun item s => match pred item s with
      | (true, s1) => (some false, s1)
      | (false, s1) => (none, s1)) s).map (returned true)

end detail

/-- The chaining `operator>`: `std::invoke(func, range)`. -/
def operator_gt {ρ κ : Type} (range : ρ) (func : ρ → κ) : κ := func range

/-- The stage `map(pred)`. -/
def map {σ α β : Type} (pred : α → β) : View σ α → View σ β :=
  fun range => detail.map_impl range pred

/-- The stage `filter(pred)`. -/
def filter {σ α : Type} (fuel : Nat) (pred : α → Bool) :
    View σ α → View (detail.TFilter.Iterator σ) α :=
  fun range => detail.filter_impl fuel range pred

/-- The stage `skip(skip)`. -/
def skip {σ α : Type} (skip : Int) : View σ α → View σ α :=
  fun range => detail.skip_impl range skip

/-- The stage `take(amount)`. -/
def take {σ α : Type} (amount : Int) : View σ α → View σ α :=
  fun range => detail.take_impl range amount

/-- The stage `reverse()`. -/
def reverse {σ α : Type} : View σ α → View σ α :=
  fun range => detail.reverse_impl range

/-- The source `range(from, count)` on `int`: `TEnumerate(from, from + count)`. -/
def range (start count : Int) : View Int Int :=
  detail.TEnumerate start (int_add start count)

/-- The terminal stage `to_vector()`. -/
def to_vector {σ α : Type} (fuel : Nat) : View σ α → Outcome (List α) :=
  fun range => detail.to_vector_impl fuel range

/-- The terminal stage `sum()` on `int` elements. -/
def sum {σ : Type} (fuel : Nat) : View σ Int → Outcome Int :=
  fun range => detail.sum_impl fuel range 0 int_add

/-- The terminal stage `all(func)`, run with the state `s` of the predicate's effects. -/
def all {σ α τ : Type} (fuel : Nat) (func : α → τ → Bool × τ) (s : τ) :
    View σ α → Outcome (Bool × τ) :=
  fun range => detail.all_impl fuel range func s

/-- The terminal stage `any(func)`. -/
def any {σ α τ : Type} (fuel : Nat) (func : α → τ → Bool × τ) (s : τ) :
    View σ α → Outcome (Bool × τ) :=
  fun range => detail.any_impl fuel range func s

/-- The terminal stage `none(func)`. -/
def none {σ α τ : Type} (fuel : Nat) (func : α → τ → Bool × τ) (s : τ) :
    View σ α → Outcome (Bool × τ) :=
  fun range => detail.none_impl fuel range func s

/-- A predicate without effects, as a predicate on the trivial state. -/
def purePred {α : Type} (p : α → Bool) : α → Unit → Bool × Unit :=
  fun x s => (p x, s)

/-- A predicate whose invocations are observable: each call appends its argument to a
log. -/
def loggedPred {α : Type} (p : α → Bool) : α → List α → Bool × List α :=
  fun x log => (p x, log ++ [x])

/-- Multiplication (`operator*`) of `int`. -/
def int_mul (a b : Int) : Int := wrapInt (a * b)

/-- Subtraction (`operator-`) of `int`. -/
def int_sub (a b : Int) : Int := wrapInt (a - b)

/-- Division (`operator/`) of `int`: the quotient is truncated toward zero. -/
def int_div (a b : Int) : Int := wrapInt (Int.tdiv a b)

/-- Remainder (`operator%`) of `int`: it has the sign of the dividend. -/
def int_rem (a b : Int) : Int := Int.tmod a b

/-- The function mapped in the test `Chain_V1`: `[](int x) { return x * x; }`. -/
def Chain_V1_map (x : Int) : Int := int_mul x x

/-- The predicate of the test `Chain_V2`: `[](int x) { return x % 2 == 0; }`. -/
def Chain_V2_filter (x : Int) : Bool := int_rem x 2 == 0

/-- The function mapped in the test `Chain_V2`: `[](int x) { return x / 2; }`. -/
def Chain_V2_map (x : Int) : Int := int_div x 2

/-- The predicate of the test `Chain_V3`: `[](char x) { return x >= '0'; }`.  A `char`
is its code, and `'0'` is 48. -/
def Chain_V3_filter (x : Int) : Bool := decide (x ≥ 48)

/-- The function mapped in the test `Chain_V3`:
`[](char x) { return (int)(x - '0'); }`. -/
def Chain_V3_map (x : Int) : Int := int_sub x 48

/-- The array a string literal denotes: the codes of its characters followed by the
terminating NUL; `Range::from` adopts all of it. -/
def string_literal (text : List Int) : List Int := text ++ [0]

/-! ## Specification-side notions -/

/-- The positions from `it` up to `e` are visited by `operator++` and read `L`:
`it != e` holds at every position before the last, each of them can be read and
incremented, and `it != e` fails at the last. -/
inductive Walk {σ α : Type} (v : View σ α) (e : σ) : σ → List α → Prop where
  | stop {it : σ} : v.ne it e = false → Walk v e it []
  | step {it it1 : σ} {a : α} {L : List α} :
      v.ne it e = true → v.deref it = .ok a → v.inc it = .ok it1 → Walk v e it1 L →
      Walk v e it (a :: L)

/-- The view `v` lists `L`: `begin()` and `end()` have values, `end() != end()` is
false, and walking from `begin()` to `end()` reads `L`. -/
def Lists {σ α : Type} (v : View σ α) (L : List α) : Prop :=
  ∃ b e, v.begin = .ok b ∧ v.end_ = .ok e ∧ v.ne e e = false ∧ Walk v e b L

/-- The iterator's `operator--` applied `k` times in a row. -/
def decTimes {σ α : Type} (v : View σ α) : Nat → σ → Outcome σ
  | 0, it => .ok it
  | k + 1, it => (v.dec it).bind (decTimes v k)

/-- A loop body run over the elements of a list, in order, until it returns. -/
def foldExit {α β ρ : Type} (body : α → β → Option ρ × β) : List α → β → Option ρ × β
  | [], s => (Option.none, s)
  | a :: L, s =>
    match body a s with
    | (some r, s1) => (some r, s1)
    | (Option.none, s1) => foldExit body L s1

/-- The elements a short-circuiting scan looks at: those before the first element on
which `stop` holds, and that element. -/
def scanned {α : Type} (stop : α → Bool) : List α → List α
  | [] => []
  | a :: L => if stop a then [a] else a :: scanned stop L

end uutils.data_processing

/-! # The fixed-capacity vector of `uutils/static_vector.h` -/

namespace uutils

/-- The exceptions `StaticVector` throws: `std::length_error` and `std::out_of_range`. -/
inductive Exception where
  | length_error
  | out_of_range
  deriving DecidableEq, Repr

/-- Result of a member function: a value, a thrown exception, or a read of storage in
which no object lives (undefined in C++). -/
inductive Result (α : Type) where
  | ok (a : α)
  | throws (e : Exception)
  | undefined
  deriving DecidableEq, Repr

/-- Largest value of `std::size_t` (64 bits). -/
def SIZE_MAX : Nat := 18446744073709551615

/-- Subtraction of `std::size_t` values: modulo `SIZE_MAX + 1`. -/
def size_t_sub (a b : Nat) : Nat := (a + (SIZE_MAX + 1 - b % (SIZE_MAX + 1))) % (SIZE_MAX + 1)

/-- Conversion `static_cast<size_type>(d)` of a pointer difference: modulo
`SIZE_MAX + 1`. -/
def static_cast_size_type (d : Int) : Nat := (d % ((SIZE_MAX : Int) + 1)).toNat

/-- Class `StaticVector<T, Capacity>`: the raw storage `_data` and the count `_size`.  A
slot of the storage is `some x` when an object `x` lives in it (placement `new`) and
`none` when none does (never constructed, or destroyed). -/
structure StaticVector (T : Type) (Capacity : Nat) where
  /-- The member `_data`, an array of `Capacity` slots. -/
  _data : List (Option T)
  /-- The member `_size`. -/
  _size : Nat
  deriving DecidableEq, Repr

namespace StaticVector

/-- Constructor `StaticVector()`: no object lives in the storage and `_size` is 0. -/
def ctor {T : Type} {Capacity : Nat} : StaticVector T Capacity :=
  { _data := List.replicate Capacity Option.none, _size := 0 }

/-- Member `size()`. -/
def size {T : Type} {Capacity : Nat} (self : StaticVector T Capacity) : Nat := self._size

/-- Member `capacity()`. -/
def capacity {T : Type} {Capacity : Nat} (_self : StaticVector T Capacity) : Nat := Capacity

/-- Member `empty()`. -/
def empty {T : Type} {Capacity : Nat} (self : StaticVector T Capacity) : Bool :=
  self._size == 0

/-- The object `*ptr(index)` refers to, if one lives in that slot of the storage. -/
def ptr {T : Type} {Capacity : Nat} (self : StaticVector T Capacity) (index : Nat) : Option T :=
  (self._data[index]?).join

/-- Member `operator[](index)`: `*ptr(index)`, with no check. -/
def operator_subscript {T : Type} {Capacity : Nat} (self : StaticVector T Capacity)
    (index : Nat) : Result T :=
  match self.ptr index with
  | some x => .ok x
  | Option.none => .undefined

/-- Member `at(index)`: throws `std::out_of_range` when `index >= _size`, and is
`(*this)[index]` otherwise. -/
def «at» {T : Type} {Capacity : Nat} (self : StaticVector T Capacity) (index : Nat) : Result T :=
  if index ≥ self._size then .throws .out_of_range
  else self.operator_subscript index

/-- Member `front()`: `(*this)[0]`. -/
def front {T : Type} {Capacity : Nat} (self : StaticVector T Capacity) : Result T :=
  self.operator_subscript 0

/-- Member `back()`: `(*this)[_size - 1]`. -/
def back {T : Type} {Capacity : Nat} (self : StaticVector T Capacity) : Result T :=
  self.operator_subscript (size_t_sub self._size 1)

/-- Member `emplace_back(args...)`, with the object `T(args...)` as argument: throws
`std::length_error` when `_size >= Capacity`; otherwise constructs the object in slot
`_size`, increments `_size` and returns a reference to the object. -/
def emplace_back {T : Type} {Capacity : Nat} (self : StaticVector T Capacity) (value : T) :
    StaticVector T Capacity × Result T :=
  if self._size ≥ Capacity then (self, .throws .length_error)
  else ({ _data := self._data.set self._size (some value), _size := self._size + 1 }, .ok value)

/-- Member `push_back(value)`: `emplace_back(value)`, returning nothing. -/
def push_back {T : Type} {Capacity : Nat} (self : StaticVector T Capacity) (value : T) :
    StaticVector T Capacity × Result Unit :=
  match self.emplace_back value with
  | (s, .ok _) => (s, .ok ())
  | (s, .throws e) => (s, .throws e)
  | (s, .undefined) => (s, .undefined)

/-- Constructor `StaticVector(std::initializer_list<T> init)`, after `_size{ 0 }`:
`for (const T& v : init) emplace_back(v);`.  An exception leaves the constructor. -/
def ctor_init.loop {T : Type} {Capacity : Nat} :
    List T → StaticVector T Capacity → Result (StaticVector T Capacity)
  | [], self => .ok self
  | v :: rest, self =>
    match self.emplace_back v with
    | (s, .ok _) => ctor_init.loop rest s
    | (_, .throws e) => .throws e
    | (_, .undefined) => .undefined

/-- Constructor `StaticVector(std::initializer_list<T> init)`. -/
def ctor_init {T : Type} {Capacity : Nat} (init : List T) : Result (StaticVector T Capacity) :=
  ctor_init.loop init ctor

/-- Member `pop_back()`: nothing when `_size == 0`; otherwise decrements `_size` and
destroys the object in slot `_size`. -/
def pop_back {T : Type} {Capacity : Nat} (self : StaticVector T Capacity) :
    StaticVector T Capacity :=
  if self._size == 0 then self
  else { _data := self._data.set (self._size - 1) Option.none, _size := self._size - 1 }

/-- Member `clear()`: `for (i = 0; i < _size; ++i) ptr(i)->~T(); _size = 0;`. -/
def clear {T : Type} {Capacity : Nat} (self : StaticVector T Capacity) :
    StaticVector T Capacity :=
  { _data := (List.range self._size).foldl (fun data i => data.set i Option.none) self._data,
    _size := 0 }

/-- Members `begin()` and `cbegin()`: the iterator on `&_data[0]`.  An iterator is its
distance, in slots, from `&_data[0]`. -/
def begin {T : Type} {Capacity : Nat} (_self : StaticVector T Capacity) : Int := 0

/-- Members `end()` and `cend()`: the iterator on `&_data[_size]`. -/
def end_ {T : Type} {Capacity : Nat} (self : StaticVector T Capacity) : Int := self._size

/-- One turn of the loop of `erase`: `new (ptr(i)) T(std::move(*ptr(i + 1)));
ptr(i + 1)->~T();`. -/
def erase.step {T : Type} (data : List (Option T)) (i : Nat) : List (Option T) :=
  (data.set i (data[i + 1]?).join).set (i + 1) Option.none

/-- Member `erase(pos)`: the index is `static_cast<size_type>(pos._ptr - &_data[0])`;
throws `std::out_of_range` when `index >= _size`; otherwise destroys the object in slot
`index`, runs `for (i = index; i + 1 < _size; ++i)` moving each later object one slot
toward the front, decrements `_size` and returns the iterator on `&_data[index]`. -/
def erase {T : Type} {Capacity : Nat} (self : StaticVector T Capacity) (pos : Int) :
    StaticVector T Capacity × Result Int :=
  let index := static_cast_size_type (pos - 0)
  if index ≥ self._size then (self, .throws .out_of_range)
  else
    let destroyed := self._data.set index Option.none
    let moved := (List.range' index (self._size - 1 - index)).foldl erase.step destroyed
    ({ _data := moved, _size := self._size - 1 }, .ok (index : Int))

/-- The state of a constructed `StaticVector`: `Capacity` is a `std::size_t`, the storage
has `Capacity` slots, `_size` is at most `Capacity`, and an object lives in each of the
first `_size` slots. -/
def Valid {T : Type} {Capacity : Nat} (self : StaticVector T Capacity) : Prop :=
  Capacity ≤ SIZE_MAX ∧ self._data.length = Capacity ∧ self._size ≤ Capacity ∧
    ∀ i, i < self._size → (self.ptr i).isSome = true

/-- What every constructed `StaticVector` satisfies, whatever `Capacity` is: the storage
has `Capacity` slots, `_size` is at most `Capacity`, and an object lives in each of the
first `_size` slots. -/
def Invariant {T : Type} {Capacity : Nat} (self : StaticVector T Capacity) : Prop :=
  self._data.length = Capacity ∧ self._size ≤ Capacity ∧
    ∀ i, i < self._size → (self.ptr i).isSome = true

/-- One call of a member function that changes the vector, with its arguments. -/
inductive Op (T : Type) where
  | emplace_back (value : T)
  | push_back (value : T)
  | pop_back
  | erase (pos : Int)
  | clear
  deriving DecidableEq, Repr

/-- The vector after one call; a call that throws leaves the vector as the member
function left it when it threw. -/
def step {T : Type} {Capacity : Nat} (self : StaticVector T Capacity) :
    Op T → StaticVector T Capacity
  | .emplace_back value => (self.emplace_back value).1
  | .push_back value => (self.push_back value).1
  | .pop_back => self.pop_back
  | .erase pos => (self.erase pos).1
  | .clear => self.clear

/-- The vector after a sequence of calls, made in order. -/
def run {T : Type} {Capacity : Nat} (self : StaticVector T Capacity) (ops : List (Op T)) :
    StaticVector T Capacity :=
  ops.foldl step self

end StaticVector

end uutils

/-! ## Lemmas on outcomes, loops and walks -/

namespace uutils.data_processing

open detail

@[simp] theorem Outcome.bind_ok {α β : Type} (a : α) (f : α → Outcome β) :
    (Outcome.ok a).bind f = f a := rfl

@[simp] theorem Outcome.bind_undefined {α β : Type} (f : α → Outcome β) :
    (Outcome.undefined : Outcome α).bind f = Outcome.undefined := rfl

@[simp] theorem Outcome.bind_outOfFuel {α β : Type} (f : α → Outcome β) :
    (Outcome.outOfFuel : Outcome α).bind f = Outcome.outOfFuel := rfl

@[simp] theorem Outcome.map_ok {α β : Type} (f : α → β) (a : α) :
    (Outcome.ok a).map f = Outcome.ok (f a) := rfl

@[simp] theorem Outcome.map_undefined {α β : Type} (f : α → β) :
    (Outcome.undefined : Outcome α).map f = Outcome.undefined := rfl

@[simp] theorem Outcome.map_outOfFuel {α β : Type} (f : α → β) :
    (Outcome.outOfFuel : Outcome α).map f = Outcome.outOfFuel := rfl

theorem Outcome.map_eq_ok {α β : Type} {f : α → β} {o : Outcome α} {b : β}
    (h : o.map f = Outcome.ok b) : ∃ a, o = Outcome.ok a ∧ f a = b := by
  cases o with
  | ok a => exact ⟨a, rfl, by simpa using h⟩
  | undefined => simp at h
  | outOfFuel => simp at h

theorem Outcome.bind_eq_ok {α β : Type} {f : α → Outcome β} {o : Outcome α} {b : β}
    (h : o.bind f = Outcome.ok b) : ∃ a, o = Outcome.ok a ∧ f a = Outcome.ok b := by
  cases o with
  | ok a => exact ⟨a, rfl, by simpa using h⟩
  | undefined => simp at h
  | outOfFuel => simp at h

/-- A loop over a walk is the loop body folded over the elements the walk reads, as
soon as the fuel exceeds their number. -/
theorem rangeFor_walk {σ α β ρ : Type} {v : View σ α} {e it : σ} {L : List α}
    (body : α → β → Option ρ × β) (h : Walk v e it L) :
    ∀ (fuel : Nat) (s : β), L.length < fuel →
      rangeFor v body e fuel it s = Outcome.ok (foldExit body L s) := by
  induction h with
  | stop hne =>
    intro fuel s hf
    cases fuel with
    | zero => simp at hf
    | succ n => simp [rangeFor, hne, foldExit]
  | @step it it1 a L1 hne hd hi _ ih =>
    intro fuel s hf
    cases fuel with
    | zero => simp at hf
    | succ n =>
      have hn : L1.length < n := by simpa using hf
      simp only [rangeFor, hne, hd, Outcome.bind_ok, foldExit, if_true]
      split <;> rename_i heq <;> simp only [heq, hi, Outcome.bind_ok]
      exact ih n _ hn

/-- The body of `to_vector_impl` folded over a list appends the list. -/
theorem foldExit_push {α : Type} (L : List α) (acc : List α) :
    foldExit (fun item result => ((Option.none : Option Empty), result ++ [item])) L acc
      = (Option.none, acc ++ L) := by
  induction L generalizing acc with
  | nil => simp [foldExit]
  | cons a L ih => simp [foldExit, ih]

/-- A run of the loop of `to_vector_impl` that ends with a value has walked over the
elements it appended, with fuel to spare. -/
theorem walk_of_rangeFor_push {σ α : Type} {v : View σ α} {e : σ} :
    ∀ (fuel : Nat) (it : σ) (acc : List α) (r : Option Empty × List α),
      rangeFor v (fun item result => ((Option.none : Option Empty), result ++ [item])) e fuel it acc
        = Outcome.ok r →
      ∃ L, r.2 = acc ++ L ∧ L.length < fuel ∧ Walk v e it L := by
  intro fuel
  induction fuel with
  | zero => intro it acc r h; simp [rangeFor] at h
  | succ n ih =>
    intro it acc r h
    simp only [rangeFor] at h
    by_cases hne : v.ne it e = true
    · simp only [hne, if_true] at h
      obtain ⟨a, hd, h⟩ := Outcome.bind_eq_ok h
      obtain ⟨it1, hi, h⟩ := Outcome.bind_eq_ok h
      obtain ⟨L, hr, hlen, hw⟩ := ih it1 _ r h
      refine ⟨a :: L, ?_, ?_, Walk.step hne hd hi hw⟩
      · simpa using hr
      · simpa using hlen
    · simp only [hne] at h
      have hne2 : v.ne it e = false := by simpa using hne
      refine ⟨[], ?_, Nat.succ_pos n, Walk.stop hne2⟩
      have : r = (Option.none, acc) := by simpa using h.symm
      simp [this]

/-- Materialising a view that walks over `L` gives `L`. -/
theorem to_vector_impl_of_walk {σ α : Type} {v : View σ α} {b e : σ} {L : List α}
    (hb : v.begin = Outcome.ok b) (he : v.end_ = Outcome.ok e) (hw : Walk v e b L)
    {fuel : Nat} (hf : L.length < fuel) : to_vector_impl fuel v = Outcome.ok L := by
  simp [to_vector_impl, forEach, hb, he, rangeFor_walk _ hw fuel _ hf, foldExit_push]

/-- A materialisation that ends with a value comes from a walk. -/
theorem walk_of_to_vector_impl {σ α : Type} {v : View σ α} {fuel : Nat} {L : List α}
    (h : to_vector_impl fuel v = Outcome.ok L) :
    ∃ b e, v.begin = Outcome.ok b ∧ v.end_ = Outcome.ok e ∧ Walk v e b L ∧ L.length < fuel := by
  obtain ⟨r, h, hr⟩ := Outcome.map_eq_ok h
  obtain ⟨b, hb, h⟩ := Outcome.bind_eq_ok h
  obtain ⟨e, he, h⟩ := Outcome.bind_eq_ok h
  obtain ⟨L1, hL, hlen, hw⟩ := walk_of_rangeFor_push fuel b [] r h
  have : L1 = L := by simpa [hr] using hL.symm
  subst this
  exact ⟨b, e, hb, he, hw, hlen⟩

/-- Walks only depend on `operator!=`, `operator*` and `operator++`. -/
theorem Walk.congr {σ α : Type} (v w : View σ α) (hn : w.ne = v.ne) (hd : w.deref = v.deref)
    (hi : w.inc = v.inc) {e it : σ} {L : List α} (h : Walk v e it L) : Walk w e it L := by
  induction h with
  | stop hne => exact Walk.stop (by rw [hn]; exact hne)
  | step hne hde hin _ ih =>
    exact Walk.step (by rw [hn]; exact hne) (by rw [hd]; exact hde) (by rw [hi]; exact hin) ih

theorem from_begin {α : Type} (S : List α) : (Range.from S).begin = Outcome.ok 0 := rfl

theorem from_end {α : Type} (S : List α) :
    (Range.from S).end_ = Outcome.ok (S.length : Int) := rfl

/-- Two offsets differ for `operator!=` exactly when they are different. -/
theorem from_ne {α : Type} (S : List α) (i j : Int) :
    (Range.from S).ne i j = (i != j) := rfl

/-- Two offsets of elements differ exactly when their indices do. -/
theorem from_ne_cast {α : Type} (S : List α) (i j : Nat) :
    (Range.from S).ne (i : Int) (j : Int) = (i != j) := by
  rw [from_ne]
  by_cases h : i = j
  · subst h
    simp
  · have hint : ¬ (i : Int) = (j : Int) := by omega
    have h1 : ((i : Int) != (j : Int)) = true := by simpa using hint
    have h2 : (i != j) = true := by simpa using h
    rw [h1, h2]

/-- Reading at the offset of an element gives the element. -/
theorem from_deref_cast {α : Type} (S : List α) (i : Nat) (h : i < S.length) :
    (Range.from S).deref (i : Int) = Outcome.ok S[i] := by
  simp [Range.from, List.getElem?_eq_getElem h]

/-- Incrementing the offset of an element gives the next offset. -/
theorem from_inc_cast {α : Type} (S : List α) (i : Nat) (h : i < S.length) :
    (Range.from S).inc (i : Int) = Outcome.ok ((i + 1 : Nat) : Int) := by
  have : (i : Int) < (S.length : Int) := by omega
  simp [Range.from, this]

/-- Decrementing an offset gives the previous offset. -/
theorem from_dec {α : Type} (S : List α) (it : Int) :
    (Range.from S).dec it = Outcome.ok (it - 1) := rfl

/-- In an adopted container, walking from offset `i` to offset `j` reads the elements
at the offsets `i .. j - 1`. -/
theorem walk_from {α : Type} (S : List α) (j : Nat) (hj : j ≤ S.length) :
    ∀ (d i : Nat), i + d = j →
      Walk (Range.from S) (j : Int) (i : Int) ((S.drop i).take d) := by
  intro d
  induction d with
  | zero =>
    intro i hi
    simp only [List.take_zero]
    exact Walk.stop (by rw [from_ne_cast]; simp; omega)
  | succ d ih =>
    intro i hi
    have hlt : i < S.length := by omega
    have hdrop : S.drop i = S[i] :: S.drop (i + 1) := List.drop_eq_getElem_cons hlt
    rw [hdrop, List.take_succ_cons]
    refine Walk.step ?_ (from_deref_cast S i hlt) (from_inc_cast S i hlt)
      (ih (i + 1) (by omega))
    rw [from_ne_cast]
    simp
    omega

/-- The view of an adopted container lists the container. -/
theorem lists_from {α : Type} (S : List α) : Lists (Range.from S) S := by
  refine ⟨0, (S.length : Int), rfl, rfl, by simp [Range.from], ?_⟩
  have := walk_from S S.length (le_refl _) S.length 0 (by simp)
  simpa using this

/-- Filtering a walk: `advance()` from any position of the walk stops on a position
from which the filter view walks over the elements satisfying the predicate. -/
theorem walk_filter {σ α : Type} {v : View σ α} {e : σ} (b : σ) (p : α → Bool) (fuel : Nat)
    {it : σ} {L : List α} (h : Walk v e it L) (hf : L.length < fuel) :
    ∀ n, L.length < n →
      ∃ x, TFilter.advance v p n ⟨it, e, b⟩ = Outcome.ok ⟨x, e, b⟩ ∧
        Walk (TFilter fuel v p) ⟨e, e, b⟩ ⟨x, e, b⟩ (L.filter p) := by
  induction h with
  | @stop it hne =>
    intro n hn
    cases n with
    | zero => simp at hn
    | succ n =>
      refine ⟨it, by simp [TFilter.advance, hne], ?_⟩
      exact Walk.stop (by simpa [TFilter] using hne)
  | @step it it1 a L1 hne hd hi hw ih =>
    have hf1 : L1.length < fuel := by simp at hf; omega
    intro n hn
    cases n with
    | zero => simp at hn
    | succ n =>
      have hn1 : L1.length < n := by simpa using hn
      by_cases hp : p a = true
      · obtain ⟨x, hx, hwx⟩ := ih hf1 fuel hf1
        refine ⟨it, by simp [TFilter.advance, hne, hd, hp], ?_⟩
        rw [List.filter_cons_of_pos hp]
        exact Walk.step (by simpa [TFilter] using hne) (by simpa [TFilter] using hd)
          (by simp [TFilter, hi, hx]) hwx
      · obtain ⟨x, hx, hwx⟩ := ih hf1 n hn1
        refine ⟨x, by simp [TFilter.advance, hne, hd, hp, hi, hx], ?_⟩
        rw [List.filter_cons_of_neg hp]
        exact hwx

/-- A filter over a view that lists `L` lists the elements of `L` satisfying the
predicate. -/
theorem lists_filter {σ α : Type} {v : View σ α} {L : List α} (p : α → Bool) {fuel : Nat}
    (h : Lists v L) (hf : L.length < fuel) : Lists (TFilter fuel v p) (L.filter p) := by
  obtain ⟨b, e, hb, he, hee, hw⟩ := h
  obtain ⟨x, hx, hwx⟩ := walk_filter b p fuel hw hf fuel hf
  have hpos : 0 < fuel := by omega
  obtain ⟨m, rfl⟩ : ∃ m, fuel = m + 1 := ⟨fuel - 1, by omega⟩
  refine ⟨⟨x, e, b⟩, ⟨e, e, b⟩, ?_, ?_, ?_, hwx⟩
  · simp [TFilter, hb, he, hx]
  · simp [TFilter, hb, he, TFilter.advance, hee]
  · simpa [TFilter] using hee

/-- Materialising a view that lists `L` gives `L`. -/
theorem to_vector_impl_of_lists {σ α : Type} {v : View σ α} {L : List α} (h : Lists v L)
    {fuel : Nat} (hf : L.length < fuel) : to_vector_impl fuel v = Outcome.ok L := by
  obtain ⟨b, e, hb, he, _, hw⟩ := h
  exact to_vector_impl_of_walk hb he hw hf

/-- The loop of the `TSkip`/`TTake` iterator constructor, run along a walk, stops on the
position from which the walk reads what is left after dropping `k` elements. -/
theorem walk_advanceUpTo {σ α : Type} {v : View σ α} {e it : σ} {L : List α}
    (h : Walk v e it L) :
    ∀ k, ∃ x, advanceUpTo v e k it = Outcome.ok x ∧ Walk v e x (L.drop k) := by
  induction h with
  | @stop it hne =>
    intro k
    refine ⟨it, ?_, by simpa using Walk.stop hne⟩
    cases k <;> simp [advanceUpTo, hne]
  | @step it it1 a L1 hne hd hi hw ih =>
    intro k
    cases k with
    | zero => exact ⟨it, by simp [advanceUpTo], by simpa using Walk.step hne hd hi hw⟩
    | succ k =>
      obtain ⟨x, hx, hwx⟩ := ih k
      exact ⟨x, by simp [advanceUpTo, hne, hi, hx], by simpa using hwx⟩

/-- Skipping over a view that lists `L` lists `L` without its first `skip` elements. -/
theorem lists_skip {σ α : Type} {v : View σ α} {L : List α} (h : Lists v L) (skip : Int) :
    Lists (TSkip v skip) (L.drop skip.toNat) := by
  obtain ⟨b, e, hb, he, hee, hw⟩ := h
  obtain ⟨x, hx, hwx⟩ := walk_advanceUpTo hw skip.toNat
  refine ⟨x, e, ?_, ?_, hee, Walk.congr v (TSkip v skip) rfl rfl rfl hwx⟩
  · simp [TSkip, TSkip.Iterator, hb, he, hx]
  · simp [TSkip, TSkip.Iterator, he, advanceUpTo]

/-- In an adopted container the constructor loop moves `k` offsets forward, or to the
end if that comes first. -/
theorem advanceUpTo_from {α : Type} (S : List α) :
    ∀ (k i : Nat), i ≤ S.length →
      advanceUpTo (Range.from S) (S.length : Int) k (i : Int)
        = Outcome.ok ((min (i + k) S.length : Nat) : Int) := by
  intro k
  induction k with
  | zero =>
    intro i hi
    have : min i S.length = i := Nat.min_eq_left hi
    simp [advanceUpTo, this]
  | succ k ih =>
    intro i hi
    by_cases hlt : i < S.length
    · have hne : (Range.from S).ne (i : Int) (S.length : Int) = true := by
        rw [from_ne_cast]; simp; omega
      simp only [advanceUpTo, hne, from_inc_cast S i hlt, if_true, Outcome.bind_ok]
      rw [ih (i + 1) hlt]
      congr 2; omega
    · have hi2 : i = S.length := by omega
      subst hi2
      have hne : (Range.from S).ne (S.length : Int) (S.length : Int) = false := by
        rw [from_ne_cast]; simp
      simp [advanceUpTo, hne]

/-- Taking from an adopted container lists its first `amount` elements. -/
theorem lists_take_from {α : Type} (S : List α) (amount : Int) :
    Lists (TTake (Range.from S) amount) (S.take amount.toNat) := by
  have hend := advanceUpTo_from S amount.toNat 0 (Nat.zero_le _)
  have hw := walk_from S (min amount.toNat S.length) (Nat.min_le_right _ _)
    (min amount.toNat S.length) 0 (by simp)
  have htake : (S.drop 0).take (min amount.toNat S.length) = S.take amount.toNat := by
    rw [List.drop_zero]
    exact List.take_eq_take.2 (by simp)
  rw [htake] at hw
  rw [Nat.zero_add] at hend
  have hend0 : advanceUpTo (Range.from S) (S.length : Int) amount.toNat 0
      = Outcome.ok ((min amount.toNat S.length : Nat) : Int) := by
    simpa using hend
  have hw0 : Walk (Range.from S) ((min amount.toNat S.length : Nat) : Int) 0
      (S.take amount.toNat) := by
    simpa using hw
  refine ⟨0, ((min amount.toNat S.length : Nat) : Int), ?_, ?_, by simp [TTake, Range.from],
    Walk.congr (Range.from S) (TTake (Range.from S) amount) rfl rfl rfl hw0⟩
  · simp [TTake, TTake.Iterator, from_begin, from_end, advanceUpTo]
  · simp only [TTake, TTake.Iterator, from_begin, from_end, Outcome.bind_ok, hend0]

/-- A loop over a map view is the loop over the upstream view with the function
applied in the body. -/
theorem rangeFor_map {σ α β γ ρ : Type} (v : View σ α) (f : α → β)
    (body : β → γ → Option ρ × γ) (e : σ) :
    ∀ (fuel : Nat) (it : σ) (s : γ),
      rangeFor (TMap v f) body e fuel it s = rangeFor v (fun a => body (f a)) e fuel it s := by
  intro fuel
  induction fuel with
  | zero => intro it s; rfl
  | succ n ih =>
    intro it s
    simp only [rangeFor]
    have hne : (TMap v f).ne it e = v.ne it e := rfl
    have hd : (TMap v f).deref it = (v.deref it).map f := rfl
    have hi : (TMap v f).inc it = v.inc it := rfl
    rw [hne, hd, hi]
    cases v.deref it with
    | ok a =>
      simp only [Outcome.map_ok, Outcome.bind_ok]
      cases hb : body (f a) s with
      | mk o s1 =>
        cases o with
        | none =>
          simp only
          cases v.inc it with
          | ok it1 => simp only [Outcome.bind_ok, ih]
          | undefined => rfl
          | outOfFuel => rfl
        | some r => rfl
    | undefined => rfl
    | outOfFuel => rfl

/-- Appending the images while looping is mapping the list appended while looping. -/
theorem rangeFor_push_map {σ α β : Type} (v : View σ α) (f : α → β) (e : σ) :
    ∀ (fuel : Nat) (it : σ) (acc : List α),
      (rangeFor v (fun a result => ((Option.none : Option Empty), result ++ [f a])) e fuel it
          (acc.map f)).map (fun r => r.2)
        = ((rangeFor v (fun a result => ((Option.none : Option Empty), result ++ [a])) e fuel it
          acc).map (fun r => r.2)).map (List.map f) := by
  intro fuel
  induction fuel with
  | zero => intro it acc; rfl
  | succ n ih =>
    intro it acc
    simp only [rangeFor]
    by_cases hne : v.ne it e = true
    · simp only [hne, if_true]
      cases v.deref it with
      | ok a =>
        simp only [Outcome.bind_ok]
        cases v.inc it with
        | ok it1 =>
          simp only [Outcome.bind_ok]
          have := ih it1 (acc ++ [a])
          simpa using this
        | undefined => rfl
        | outOfFuel => rfl
      | undefined => rfl
      | outOfFuel => rfl
    · simp [hne]

/-- Materialising a map view is mapping the materialisation of the upstream view,
whatever the upstream view and the fuel. -/
theorem to_vector_impl_map {σ α β : Type} (v : View σ α) (f : α → β) (fuel : Nat) :
    to_vector_impl fuel (TMap v f) = (to_vector_impl fuel v).map (List.map f) := by
  simp only [to_vector_impl, forEach]
  have hb : (TMap v f).begin = v.begin := rfl
  have he : (TMap v f).end_ = v.end_ := rfl
  rw [hb, he]
  cases v.begin with
  | ok b =>
    cases v.end_ with
    | ok e =>
      simp only [Outcome.bind_ok, rangeFor_map]
      exact rangeFor_push_map v f e fuel b []
    | undefined => rfl
    | outOfFuel => rfl
  | undefined => rfl
  | outOfFuel => rfl

/-- A map over a view that lists `L` lists the images of `L`. -/
theorem lists_map {σ α β : Type} {v : View σ α} {L : List α} (f : α → β) (h : Lists v L) :
    Lists (TMap v f) (L.map f) := by
  obtain ⟨b, e, hb, he, hee, hw⟩ := h
  refine ⟨b, e, hb, he, hee, ?_⟩
  clear hb
  induction hw with
  | stop hne => exact Walk.stop hne
  | step hne hd hi _ ih =>
    exact Walk.step hne (by simp [TMap, hd]) hi ih

/-- Values of `int` are not changed by the reduction to 32 bits. -/
theorem wrapInt_of_bounds {x : Int} (hlo : INT_MIN ≤ x) (hhi : x ≤ INT_MAX) : wrapInt x = x := by
  simp only [INT_MIN, INT_MAX] at hlo hhi
  simp only [wrapInt]
  omega

/-- Counting up from `x` to `x + d` inside `int` reads `x, x + 1, ..., x + d - 1`. -/
theorem walk_enumerate (a m : Int) :
    ∀ (d : Nat) (x : Int), INT_MIN ≤ x → x + d ≤ INT_MAX →
      Walk (TEnumerate a m) (x + d) x ((List.range d).map (fun i : Nat => x + (i : Int))) := by
  intro d
  induction d with
  | zero =>
    intro x _ _
    exact Walk.stop (by simp [TEnumerate])
  | succ d ih =>
    intro x hlo hhi
    have hx1 : wrapInt (x + 1) = x + 1 := by
      apply wrapInt_of_bounds <;> simp only [INT_MIN, INT_MAX] at * <;> push_cast at hhi <;> omega
    have hw := ih (x + 1) (by simp only [INT_MIN] at *; omega) (by push_cast at hhi; omega)
    have hlist : (List.range (d + 1)).map (fun i : Nat => x + (i : Int))
        = x :: (List.range d).map (fun i : Nat => x + 1 + (i : Int)) := by
      rw [List.range_succ_eq_map]
      simp only [List.map_cons, List.map_map, Function.comp_def, Nat.cast_zero, add_zero,
        Nat.cast_succ, List.cons.injEq, true_and]
      refine List.map_congr_left fun i _ => ?_
      omega
    have hend : x + ((d + 1 : Nat) : Int) = x + 1 + (d : Int) := by push_cast; omega
    rw [hlist, hend]
    refine Walk.step ?_ rfl ?_ hw
    · simp [TEnumerate]; omega
    · simp [TEnumerate, hx1]

/-- Any loop over a view that materialises to `L` is its body folded over `L`. -/
theorem forEach_of_to_vector_impl {σ α β ρ : Type} {v : View σ α} {fuel : Nat} {L : List α}
    (h : to_vector_impl fuel v = Outcome.ok L) (body : α → β → Option ρ × β) (s : β) :
    forEach fuel v body s = Outcome.ok (foldExit body L s) := by
  obtain ⟨b, e, hb, he, hw, hlen⟩ := walk_of_to_vector_impl h
  simp [forEach, hb, he, rangeFor_walk body hw fuel s hlen]

/-- The body of `sum_impl` folded over a list is the left fold of the addition. -/
theorem foldExit_add {α : Type} (add : α → α → α) (L : List α) (z : α) :
    foldExit (fun item sum => ((Option.none : Option Empty), add sum item)) L z
      = (Option.none, L.foldl add z) := by
  induction L generalizing z with
  | nil => rfl
  | cons a L ih => simp [foldExit, ih]

/-- Adding with `int_add` is exact as long as every partial sum is a value of `int`. -/
theorem foldl_int_add_of_bounds (L : List Int) :
    ∀ (z : Int),
      (∀ k, k ≤ L.length → INT_MIN ≤ z + (L.take k).sum ∧ z + (L.take k).sum ≤ INT_MAX) →
      L.foldl int_add z = z + L.sum := by
  induction L with
  | nil => intro z _; simp
  | cons a L ih =>
    intro z h
    have h1 := h 1 (by simp)
    simp only [List.take_succ_cons, List.take_zero, List.sum_cons, List.sum_nil, add_zero] at h1
    have hw : int_add z a = z + a := wrapInt_of_bounds h1.1 h1.2
    simp only [List.foldl_cons, hw, List.sum_cons]
    rw [ih (z + a), add_assoc]
    intro k hk
    have := h (k + 1) (by simpa using hk)
    simpa [List.take_succ_cons, add_assoc] using this

/-- The elements a scan looks at are a prefix of the list: the elements before the
first on which it stops, and one more. -/
theorem scanned_eq_take {α : Type} (stop : α → Bool) (L : List α) :
    scanned stop L = L.take ((L.takeWhile (fun x => !stop x)).length + 1) := by
  induction L with
  | nil => rfl
  | cons a L ih =>
    by_cases h : stop a = true
    · simp [scanned, h, List.takeWhile]
    · simp [scanned, h, List.takeWhile, ih]

/-- Logging the elements of a list one after the other appends the list to the log. -/
theorem foldl_log {α : Type} (M : List α) (log : List α) :
    M.foldl (fun s x => s ++ [x]) log = log ++ M := by
  induction M generalizing log with
  | nil => simp
  | cons a M ih => simp [ih]

end uutils.data_processing

/-! ## Short-circuiting scans over a materialised sequence -/

namespace uutils.data_processing

open detail

/-- Running `all_impl` over a view that materialises to `L`, for a predicate whose result is
`p` and whose effect on the state is `g`: the result is `L.all p` and the effect has
taken place for the elements up to the first that fails `p`, in order. -/
theorem all_impl_of_to_vector_impl {σ α τ : Type} {v : View σ α} {fuel : Nat} {L : List α}
    (h : to_vector_impl fuel v = Outcome.ok L) (p : α → Bool) (g : α → τ → τ) (s : τ) :
    all_impl fuel v (fun x s => (p x, g x s)) s
      = Outcome.ok (L.all p, (scanned (fun x => !p x) L).foldl (fun s x => g x s) s) := by
  simp only [all_impl, forEach_of_to_vector_impl h, Outcome.map_ok]
  congr 1
  clear h
  induction L generalizing s with
  | nil => rfl
  | cons a L ih =>
    cases hp : p a with
    | true => simpa [foldExit, scanned, hp] using ih (g a s)
    | false => simp [foldExit, scanned, hp, returned]

/-- Running `any_impl` over a view that materialises to `L`: the result is `L.any p` and the
effect has taken place for the elements up to the first that satisfies `p`. -/
theorem any_impl_of_to_vector_impl {σ α τ : Type} {v : View σ α} {fuel : Nat} {L : List α}
    (h : to_vector_impl fuel v = Outcome.ok L) (p : α → Bool) (g : α → τ → τ) (s : τ) :
    any_impl fuel v (fun x s => (p x, g x s)) s
      = Outcome.ok (L.any p, (scanned p L).foldl (fun s x => g x s) s) := by
  simp only [any_impl, forEach_of_to_vector_impl h, Outcome.map_ok]
  congr 1
  clear h
  induction L generalizing s with
  | nil => rfl
  | cons a L ih =>
    cases hp : p a with
    | true => simp [foldExit, scanned, hp, returned]
    | false => simpa [foldExit, scanned, hp] using ih (g a s)

/-- Running `none_impl` over a view that materialises to `L`: the result is the negation of
`L.any p` and the effect has taken place for the elements up to the first that
satisfies `p`. -/
theorem none_impl_of_to_vector_impl {σ α τ : Type} {v : View σ α} {fuel : Nat} {L : List α}
    (h : to_vector_impl fuel v = Outcome.ok L) (p : α → Bool) (g : α → τ → τ) (s : τ) :
    none_impl fuel v (fun x s => (p x, g x s)) s
      = Outcome.ok (!L.any p, (scanned p L).foldl (fun s x => g x s) s) := by
  simp only [none_impl, forEach_of_to_vector_impl h, Outcome.map_ok]
  congr 1
  clear h
  induction L generalizing s with
  | nil => rfl
  | cons a L ih =>
    cases hp : p a with
    | true => simp [foldExit, scanned, hp, returned]
    | false => simpa [foldExit, scanned, hp] using ih (g a s)

end uutils.data_processing

/-! ## The properties of the pipeline -/

namespace uutils.data_processing

open detail

/-- C1: for every finite source `S` and predicate `p`, materialising
`Range::from(S) > filter(p) > to_vector()` gives exactly the elements of `S` that satisfy
`p`, in their original relative order (`List.filter p S`, a sublist of `S`); every
retained element satisfies `p`, and the result is empty when no element satisfies `p`.
The loops of the filter and of the materialisation finish on any fuel above the length
of `S`. -/
theorem filter_to_vector {α : Type} (S : List α) (p : α → Bool) (fuel1 fuel2 : Nat)
    (h1 : S.length < fuel1) (h2 : S.length < fuel2) :
    ∃ L, operator_gt (operator_gt (Range.from S) (filter fuel1 p)) (to_vector fuel2)
          = Outcome.ok L ∧
      L = S.filter p ∧ L.Sublist S ∧ (∀ x ∈ L, p x = true) ∧
      ((∀ x ∈ S, p x = false) → L = []) := by
  refine ⟨S.filter p, ?_, rfl, List.filter_sublist S, ?_, ?_⟩
  · have hl := lists_filter p (lists_from S) h1
    have hlen : (S.filter p).length < fuel2 :=
      lt_of_le_of_lt (List.length_filter_le p S) h2
    exact to_vector_impl_of_lists hl hlen
  · intro x hx
    exact (List.mem_filter.1 hx).2
  · intro hnone
    exact List.filter_eq_nil_iff.2 fun x hx => by simp [hnone x hx]

/-- The filter test of the repository: the odd elements of `{1, 2, 3, 4, 5}`. -/
theorem filter_to_vector_witness :
    operator_gt (operator_gt (Range.from [1, 2, 3, 4, 5]) (filter 6 (fun x : Int => x % 2 == 1)))
      (to_vector 6) = Outcome.ok [1, 3, 5] := by
  obtain ⟨L, h, hL, _⟩ :=
    filter_to_vector [1, 2, 3, 4, 5] (fun x : Int => x % 2 == 1) 6 6 (by decide) (by decide)
  rw [h, hL]
  rfl

/-- C2: for every finite source `S` and count `n ≥ 0`, materialising
`Range::from(S) > skip(n) > to_vector()` gives the elements of `S` from index `n` onward;
its length is `max(0, len(S) - n)`, and when `n ≥ len(S)` the result is empty, with no
error. -/
theorem skip_to_vector {α : Type} (S : List α) (n : Int) (fuel : Nat) (hn : 0 ≤ n)
    (hf : S.length < fuel) :
    ∃ L, operator_gt (operator_gt (Range.from S) (skip n)) (to_vector fuel) = Outcome.ok L ∧
      L = S.drop n.toNat ∧ (∀ i : Nat, L[i]? = S[n.toNat + i]?) ∧
      (L.length : Int) = max 0 ((S.length : Int) - n) ∧
      ((S.length : Int) ≤ n → L = []) := by
  refine ⟨S.drop n.toNat, ?_, rfl, ?_, ?_, ?_⟩
  · have hl := lists_skip (lists_from S) n
    have hlen : (S.drop n.toNat).length < fuel := by
      rw [List.length_drop]; omega
    exact to_vector_impl_of_lists hl hlen
  · intro i
    exact List.getElem?_drop _ _ _
  · rw [List.length_drop]
    omega
  · intro hle
    exact List.drop_eq_nil_iff.2 (by omega)

/-- The skip test of the repository: `{1, 2, 3, 4, 5}` without its first two elements. -/
theorem skip_to_vector_witness :
    operator_gt (operator_gt (Range.from ([1, 2, 3, 4, 5] : List Int)) (skip 2)) (to_vector 6)
      = Outcome.ok [3, 4, 5] := by
  obtain ⟨L, h, hL, _⟩ :=
    skip_to_vector ([1, 2, 3, 4, 5] : List Int) 2 6 (by decide) (by decide)
  rw [h, hL]
  rfl

/-- C3: for every finite source `S` and limit `m ≥ 0`, materialising
`Range::from(S) > take(m) > to_vector()` gives the first `m` elements of `S`; its length
is `min(m, len(S))`, and when `m ≥ len(S)` the result is all of `S`, with no error. -/
theorem take_to_vector {α : Type} (S : List α) (m : Int) (fuel : Nat) (hm : 0 ≤ m)
    (hf : S.length < fuel) :
    ∃ L, operator_gt (operator_gt (Range.from S) (take m)) (to_vector fuel) = Outcome.ok L ∧
      L = S.take m.toNat ∧ (∀ i : Nat, (i : Int) < m → L[i]? = S[i]?) ∧
      (L.length : Int) = min m (S.length : Int) ∧
      ((S.length : Int) ≤ m → L = S) := by
  refine ⟨S.take m.toNat, ?_, rfl, ?_, ?_, ?_⟩
  · have hl := lists_take_from S m
    have hlen : (S.take m.toNat).length < fuel := by
      rw [List.length_take]; omega
    exact to_vector_impl_of_lists hl hlen
  · intro i hi
    exact List.getElem?_take_of_lt (by omega)
  · rw [List.length_take]
    omega
  · intro hle
    exact List.take_of_length_le (by omega)

/-- The take test of the repository: the first three elements of `{1, 2, 3, 4, 5}`. -/
theorem take_to_vector_witness :
    operator_gt (operator_gt (Range.from ([1, 2, 3, 4, 5] : List Int)) (take 3)) (to_vector 6)
      = Outcome.ok [1, 2, 3] := by
  obtain ⟨L, h, hL, _⟩ :=
    take_to_vector ([1, 2, 3, 4, 5] : List Int) 3 6 (by decide) (by decide)
  rw [h, hL]
  rfl

/-- C4: for every finite source `S` and pure function `f`, materialising
`Range::from(S) > map(f) > to_vector()` is `f` applied element-wise to the
materialisation of `S`: same length, same order.  The first part holds over every
upstream view and for every fuel, outcome for outcome. -/
theorem map_to_vector {α β : Type} (f : α → β) :
    (∀ (σ : Type) (v : View σ α) (fuel : Nat),
      operator_gt (operator_gt v (map f)) (to_vector fuel)
        = (operator_gt v (to_vector fuel)).map (List.map f)) ∧
    (∀ (S : List α) (fuel : Nat), S.length < fuel →
      operator_gt (Range.from S) (to_vector fuel) = Outcome.ok S ∧
      ∃ L, operator_gt (operator_gt (Range.from S) (map f)) (to_vector fuel) = Outcome.ok L ∧
        L = S.map f ∧ L.length = S.length ∧ ∀ i : Nat, L[i]? = (S[i]?).map f) := by
  refine ⟨fun σ v fuel => to_vector_impl_map v f fuel, fun S fuel hf => ?_⟩
  have hS : to_vector_impl fuel (Range.from S) = Outcome.ok S :=
    to_vector_impl_of_lists (lists_from S) hf
  refine ⟨hS, S.map f, ?_, rfl, List.length_map S f, fun i => List.getElem?_map f S i⟩
  show to_vector_impl fuel (TMap (Range.from S) f) = Outcome.ok (S.map f)
  rw [to_vector_impl_map, hS]
  rfl

/-- The map test of the repository: the doubles of `{1, 2, 3, 4, 5}`. -/
theorem map_to_vector_witness :
    operator_gt (operator_gt (Range.from [1, 2, 3, 4, 5]) (map (fun x : Int => x * 2)))
      (to_vector 6) = Outcome.ok [2, 4, 6, 8, 10] := by
  obtain ⟨L, h, hL, _⟩ :=
    ((map_to_vector (fun x : Int => x * 2)).2 [1, 2, 3, 4, 5] 6 (by decide)).2
  rw [h, hL]
  rfl

/-- C5: for every finite ordered source `S`, `Range::from(S)` exposes `begin()` and
`end()` equal to the source's own begin and end positions, and
`Range::from(S) > to_vector()` reproduces the elements of `S` in original order and
count; `begin() != end()` is false exactly when `S` is empty, and the result is then
empty. -/
theorem from_to_vector {α : Type} (S : List α) (fuel : Nat) (hf : S.length < fuel) :
    (Range.from S).begin = Outcome.ok (std_begin S) ∧
    (Range.from S).end_ = Outcome.ok (std_end S) ∧
    operator_gt (Range.from S) (to_vector fuel) = Outcome.ok S ∧
    ((Range.from S).ne (std_begin S) (std_end S) = false ↔ S = []) ∧
    (S = [] → operator_gt (Range.from S) (to_vector fuel) = Outcome.ok []) := by
  have hS : to_vector_impl fuel (Range.from S) = Outcome.ok S :=
    to_vector_impl_of_lists (lists_from S) hf
  refine ⟨rfl, rfl, hS, ?_, ?_⟩
  · simp only [Range.from, std_begin, std_end]
    cases S with
    | nil => simp
    | cons a S =>
      simp only [List.length_cons, reduceCtorEq, iff_false]
      have : ¬ (0 : Int) = ((S.length + 1 : Nat) : Int) := by omega
      simpa using this
  · intro h
    subst h
    exact hS

/-- The materialisation test of the repository: the characters of `"Hello"`. -/
theorem from_to_vector_witness :
    operator_gt (Range.from ['H', 'e', 'l', 'l', 'o']) (to_vector 6)
      = Outcome.ok ['H', 'e', 'l', 'l', 'o'] :=
  (from_to_vector ['H', 'e', 'l', 'l', 'o'] 6 (by decide)).2.2.1

/-- C7: for every `int` value `start` and every `count ≥ 0` with `start + count` not
overflowing, `range(start, count) > to_vector()` gives exactly `count` elements, the
consecutive values `start, start + 1, ..., start + count - 1` in increasing order. -/
theorem range_to_vector (start count : Int) (fuel : Nat) (hlo : INT_MIN ≤ start)
    (hc : 0 ≤ count) (hhi : start + count ≤ INT_MAX) (hf : count.toNat < fuel) :
    ∃ L, operator_gt (range start count) (to_vector fuel) = Outcome.ok L ∧
      L = (List.range count.toNat).map (fun i : Nat => start + (i : Int)) ∧
      (L.length : Int) = count ∧
      (∀ i : Nat, (i : Int) < count → L[i]? = some (start + (i : Int))) ∧
      L.Pairwise (fun a b => a < b) := by
  have hcount : ((count.toNat : Nat) : Int) = count := Int.toNat_of_nonneg hc
  have hmax : int_add start count = start + count := by
    apply wrapInt_of_bounds <;> simp only [INT_MIN, INT_MAX] at * <;> omega
  refine ⟨(List.range count.toNat).map (fun i : Nat => start + (i : Int)), ?_, rfl, ?_, ?_, ?_⟩
  · have hw := walk_enumerate start (start + count) count.toNat start hlo (by rw [hcount]; exact hhi)
    rw [hcount] at hw
    have hb : (range start count).begin = Outcome.ok start := rfl
    have he : (range start count).end_ = Outcome.ok (start + count) := by
      simp [range, TEnumerate, hmax]
    have hw2 : Walk (range start count) (start + count) start
        ((List.range count.toNat).map (fun i : Nat => start + (i : Int))) := by
      simpa [range, hmax] using hw
    exact to_vector_impl_of_walk hb he hw2 (by simpa using hf)
  · simpa using hcount
  · intro i hi
    have hi2 : i < count.toNat := by omega
    simp [List.getElem?_map, List.getElem?_range hi2]
  · rw [List.pairwise_map]
    exact (List.pairwise_lt_range count.toNat).imp (by intro a b hab; omega)

/-- The range test of the repository: `range(5, 10)` gives ten elements, `5 .. 14`. -/
theorem range_to_vector_witness :
    operator_gt (range 5 10) (to_vector 11) = Outcome.ok [5, 6, 7, 8, 9, 10, 11, 12, 13, 14] ∧
    (operator_gt (range 5 10) (to_vector 11)).map List.length = Outcome.ok 10 := by
  obtain ⟨L, h, hL, _⟩ :=
    range_to_vector 5 10 11 (by decide) (by decide) (by decide) (by decide)
  rw [h, hL]
  exact ⟨rfl, rfl⟩

/-- C8: over every finite sequence of `int` values (a view that materialises to `L`),
`sum()` returns the result of adding all its elements in traversal order, starting from
0, with the addition of `int`; this is the mathematical sum whenever every partial sum
is a value of `int`, and it is 0 over the empty sequence. -/
theorem sum_is_fold {σ : Type} (v : View σ Int) (fuel : Nat) (L : List Int)
    (h : operator_gt v (to_vector fuel) = Outcome.ok L) :
    operator_gt v (sum fuel) = Outcome.ok (L.foldl int_add 0) ∧
    ((∀ k, k ≤ L.length → INT_MIN ≤ (L.take k).sum ∧ (L.take k).sum ≤ INT_MAX) →
      operator_gt v (sum fuel) = Outcome.ok L.sum) ∧
    (L = [] → operator_gt v (sum fuel) = Outcome.ok 0) := by
  have hsum : operator_gt v (sum fuel) = Outcome.ok (L.foldl int_add 0) := by
    simp only [operator_gt, sum, sum_impl]
    rw [forEach_of_to_vector_impl h, foldExit_add]
    rfl
  refine ⟨hsum, ?_, ?_⟩
  · intro hb
    rw [hsum, foldl_int_add_of_bounds L 0 (by simpa using hb)]
    simp
  · intro hL
    rw [hsum, hL]
    rfl

/-- The sum test of the repository, and the sum of the empty sequence. -/
theorem sum_is_fold_witness :
    operator_gt (Range.from ([1, 2, 3, 4, 5] : List Int)) (sum 6) = Outcome.ok 15 ∧
    operator_gt (Range.from ([] : List Int)) (sum 1) = Outcome.ok 0 :=
  ⟨(sum_is_fold (Range.from [1, 2, 3, 4, 5]) 6 [1, 2, 3, 4, 5] (by decide)).1,
   (sum_is_fold (Range.from []) 1 [] (by decide)).2.2 rfl⟩

/-- C9: over every finite sequence (a view that materialises to `L`) and predicate `p`,
`all(p)` returns true iff every element satisfies `p`, `any(p)` returns true iff some
element satisfies `p`, and `none(p)` returns true iff no element satisfies `p`; over
the empty sequence they return true, false and true. -/
theorem all_any_none_results {σ α : Type} (v : View σ α) (fuel : Nat) (L : List α)
    (p : α → Bool) (h : operator_gt v (to_vector fuel) = Outcome.ok L) :
    ∃ ra rb rc : Bool,
      operator_gt v (all fuel (purePred p) ()) = Outcome.ok (ra, ()) ∧
      (ra = true ↔ ∀ x ∈ L, p x = true) ∧
      operator_gt v (any fuel (purePred p) ()) = Outcome.ok (rb, ()) ∧
      (rb = true ↔ ∃ x ∈ L, p x = true) ∧
      operator_gt v (none fuel (purePred p) ()) = Outcome.ok (rc, ()) ∧
      (rc = true ↔ ∀ x ∈ L, p x = false) ∧
      (L = [] → ra = true ∧ rb = false ∧ rc = true) := by
  refine ⟨L.all p, L.any p, !L.any p, ?_, List.all_eq_true, ?_, List.any_eq_true, ?_, ?_, ?_⟩
  · exact all_impl_of_to_vector_impl h p (fun _ s => s) ()
  · exact any_impl_of_to_vector_impl h p (fun _ s => s) ()
  · exact none_impl_of_to_vector_impl h p (fun _ s => s) ()
  · simp
  · intro hL
    subst hL
    simp

/-- The all, any and none tests of the repository over `{1, 2, 3, 4, 5}`. -/
theorem all_any_none_results_witness :
    operator_gt (Range.from ([1, 2, 3, 4, 5] : List Int))
      (all 6 (purePred (fun x => decide (x > 0))) ()) = Outcome.ok (true, ()) ∧
    operator_gt (Range.from ([1, 2, 3, 4, 5] : List Int))
      (any 6 (purePred (fun x => decide (x > 4))) ()) = Outcome.ok (true, ()) ∧
    operator_gt (Range.from ([1, 2, 3, 4, 5] : List Int))
      (none 6 (purePred (fun x => decide (x < 1))) ()) = Outcome.ok (true, ()) := by
  obtain ⟨ra, _, _, h1, hra, _⟩ := all_any_none_results
    (Range.from ([1, 2, 3, 4, 5] : List Int)) 6 [1, 2, 3, 4, 5] (fun x => decide (x > 0))
    (by decide)
  obtain ⟨_, rb, _, _, _, h2, hrb, _⟩ := all_any_none_results
    (Range.from ([1, 2, 3, 4, 5] : List Int)) 6 [1, 2, 3, 4, 5] (fun x => decide (x > 4))
    (by decide)
  obtain ⟨_, _, rc, _, _, _, _, h3, hrc, _⟩ := all_any_none_results
    (Range.from ([1, 2, 3, 4, 5] : List Int)) 6 [1, 2, 3, 4, 5] (fun x => decide (x < 1))
    (by decide)
  rw [hra.2 (by decide)] at h1
  rw [hrb.2 (by decide)] at h2
  rw [hrc.2 (by decide)] at h3
  exact ⟨h1, h2, h3⟩

/-- C10: `all`, `any` and `none` short-circuit.  With a predicate whose invocations are
logged, over every finite sequence (a view that materialises to `L`): `all(p)` invokes
`p` exactly on the elements of `L` up to and including the first that fails `p` (on
every element when none fails), `any(p)` and `none(p)` invoke it exactly on the elements
up to and including the first that satisfies `p`; each of these elements is passed
once, in order, and no later element is passed. -/
theorem all_any_none_short_circuit {σ α : Type} (v : View σ α) (fuel : Nat) (L : List α)
    (p : α → Bool) (h : operator_gt v (to_vector fuel) = Outcome.ok L) :
    operator_gt v (all fuel (loggedPred p) [])
      = Outcome.ok (L.all p, L.take ((L.takeWhile p).length + 1)) ∧
    operator_gt v (any fuel (loggedPred p) [])
      = Outcome.ok (L.any p, L.take ((L.takeWhile (fun x => !p x)).length + 1)) ∧
    operator_gt v (none fuel (loggedPred p) [])
      = Outcome.ok (!L.any p, L.take ((L.takeWhile (fun x => !p x)).length + 1)) := by
  have hall := all_impl_of_to_vector_impl h p (fun x log => log ++ [x]) []
  have hany := any_impl_of_to_vector_impl h p (fun x log => log ++ [x]) []
  have hnone := none_impl_of_to_vector_impl h p (fun x log => log ++ [x]) []
  rw [foldl_log, scanned_eq_take, List.nil_append] at hall hany hnone
  simp only [Bool.not_not] at hall
  exact ⟨hall, hany, hnone⟩

/-- Short-circuiting over `{1, 2, 3, 4, 5}`: `all(x < 3)` looks at `1, 2, 3`,
`any(x > 3)` at `1, 2, 3, 4`, and `none(x > 5)` at every element. -/
theorem all_any_none_short_circuit_witness :
    operator_gt (Range.from ([1, 2, 3, 4, 5] : List Int))
      (all 6 (loggedPred (fun x => decide (x < 3))) []) = Outcome.ok (false, [1, 2, 3]) ∧
    operator_gt (Range.from ([1, 2, 3, 4, 5] : List Int))
      (any 6 (loggedPred (fun x => decide (x > 3))) []) = Outcome.ok (true, [1, 2, 3, 4]) ∧
    operator_gt (Range.from ([1, 2, 3, 4, 5] : List Int))
      (none 6 (loggedPred (fun x => decide (x > 5))) [])
        = Outcome.ok (true, [1, 2, 3, 4, 5]) :=
  ⟨(all_any_none_short_circuit (Range.from ([1, 2, 3, 4, 5] : List Int)) 6 [1, 2, 3, 4, 5]
      (fun x => decide (x < 3)) (by decide)).1,
   (all_any_none_short_circuit (Range.from ([1, 2, 3, 4, 5] : List Int)) 6 [1, 2, 3, 4, 5]
      (fun x => decide (x > 3)) (by decide)).2.1,
   (all_any_none_short_circuit (Range.from ([1, 2, 3, 4, 5] : List Int)) 6 [1, 2, 3, 4, 5]
      (fun x => decide (x > 5)) (by decide)).2.2⟩

end uutils.data_processing

/-! ## Chained views -/

namespace uutils.data_processing

open detail

/-- The constructor loop of `TSkip`/`TTake` only depends on `operator!=` and
`operator++`. -/
theorem advanceUpTo_congr {σ α : Type} (v w : View σ α) (hn : w.ne = v.ne)
    (hi : w.inc = v.inc) (e : σ) :
    ∀ (k : Nat) (it : σ), advanceUpTo w e k it = advanceUpTo v e k it := by
  intro k
  induction k with
  | zero => intro it; rfl
  | succ k ih =>
    intro it
    simp only [advanceUpTo, hn, hi]
    have : advanceUpTo w e k = advanceUpTo v e k := funext ih
    rw [this]

/-- Where `skip` over an adopted container begins and ends. -/
theorem skip_from_bounds {α : Type} (S : List α) (a : Int) :
    (TSkip (Range.from S) a).begin = Outcome.ok ((min a.toNat S.length : Nat) : Int) ∧
    (TSkip (Range.from S) a).end_ = Outcome.ok (S.length : Int) := by
  have h := advanceUpTo_from S a.toNat 0 (Nat.zero_le _)
  rw [Nat.zero_add] at h
  have h0 : advanceUpTo (Range.from S) (S.length : Int) a.toNat 0
      = Outcome.ok ((min a.toNat S.length : Nat) : Int) := by
    simpa using h
  constructor
  · simp only [TSkip, TSkip.Iterator, from_begin, from_end, Outcome.bind_ok, h0]
  · simp [TSkip, TSkip.Iterator, from_end, advanceUpTo]

/-- Taking after skipping over an adopted container lists the `b` elements that follow
the first `a`. -/
theorem lists_take_skip_from {α : Type} (S : List α) (a b : Int) :
    Lists (TTake (TSkip (Range.from S) a) b) ((S.drop a.toNat).take b.toNat) := by
  obtain ⟨hb, he⟩ := skip_from_bounds S a
  have hle : min a.toNat S.length ≤ S.length := Nat.min_le_right _ _
  have hend : advanceUpTo (TSkip (Range.from S) a) (S.length : Int) b.toNat
      ((min a.toNat S.length : Nat) : Int)
      = Outcome.ok ((min (min a.toNat S.length + b.toNat) S.length : Nat) : Int) := by
    rw [advanceUpTo_congr (Range.from S) (TSkip (Range.from S) a) rfl rfl]
    exact advanceUpTo_from S b.toNat _ hle
  have hw := walk_from S (min (min a.toNat S.length + b.toNat) S.length) (Nat.min_le_right _ _)
    (min (min a.toNat S.length + b.toNat) S.length - min a.toNat S.length)
    (min a.toNat S.length) (by omega)
  have hlist : (S.drop (min a.toNat S.length)).take
      (min (min a.toNat S.length + b.toNat) S.length - min a.toNat S.length)
      = (S.drop a.toNat).take b.toNat := by
    have hdrop : S.drop (min a.toNat S.length) = S.drop a.toNat := by
      by_cases h : a.toNat ≤ S.length
      · rw [Nat.min_eq_left h]
      · have h1 : S.length ≤ a.toNat := by omega
        rw [Nat.min_eq_right h1, List.drop_of_length_le h1, List.drop_of_length_le (le_refl _)]
    rw [hdrop]
    refine List.take_eq_take.2 ?_
    rw [List.length_drop]
    omega
  rw [hlist] at hw
  refine ⟨((min a.toNat S.length : Nat) : Int),
    ((min (min a.toNat S.length + b.toNat) S.length : Nat) : Int), ?_, ?_,
    by simp [TTake, TSkip, Range.from],
    Walk.congr (Range.from S) (TTake (TSkip (Range.from S) a) b) rfl rfl rfl hw⟩
  · simp only [TTake, TTake.Iterator, hb, he, Outcome.bind_ok, Int.toNat_zero, advanceUpTo]
  · simp only [TTake, TTake.Iterator, hb, he, Outcome.bind_ok, hend]

end uutils.data_processing

/-! ## The generator under a filter and a map -/

namespace uutils.data_processing

open detail

/-- The generator lists `start, start + 1, ..., start + count - 1` when these are values
of `int`. -/
theorem lists_range (start count : Int) (hlo : INT_MIN ≤ start) (hc : 0 ≤ count)
    (hhi : start + count ≤ INT_MAX) :
    Lists (range start count) ((List.range count.toNat).map (fun i : Nat => start + (i : Int))) := by
  have hcount : ((count.toNat : Nat) : Int) = count := Int.toNat_of_nonneg hc
  have hmax : int_add start count = start + count := by
    apply wrapInt_of_bounds <;> simp only [INT_MIN, INT_MAX] at * <;> omega
  have hw := walk_enumerate start (start + count) count.toNat start hlo (by rw [hcount]; exact hhi)
  rw [hcount] at hw
  refine ⟨start, start + count, rfl, by simp [range, TEnumerate, hmax], by simp [range, TEnumerate], ?_⟩
  simpa [range, hmax] using hw

/-- On a non-negative `int` the predicate of `Chain_V2` tests whether it is even. -/
theorem Chain_V2_filter_of_nonneg {x : Int} (hx : 0 ≤ x) :
    Chain_V2_filter x = decide (x % 2 = 0) := by
  simp only [Chain_V2_filter, int_rem, Int.tmod_eq_emod hx (by decide : (0 : Int) ≤ 2)]
  rfl

/-- On a non-negative `int` the function of `Chain_V2` is the exact half, rounded down. -/
theorem Chain_V2_map_of_nonneg {x : Int} (hx : 0 ≤ x) (hmax : x ≤ INT_MAX) :
    Chain_V2_map x = x / 2 := by
  simp only [Chain_V2_map, int_div, Int.tdiv_eq_ediv hx (by decide : (0 : Int) ≤ 2)]
  apply wrapInt_of_bounds <;> simp only [INT_MIN, INT_MAX] at * <;> omega

/-- The halves of the even numbers among `1, ..., 2k` are `1, ..., k`. -/
theorem halves_of_evens (k : Nat) (hk : ((2 * k : Nat) : Int) ≤ INT_MAX) :
    (((List.range (2 * k)).map (fun i : Nat => 1 + (i : Int))).filter Chain_V2_filter).map
        Chain_V2_map
      = (List.range k).map (fun i : Nat => (i : Int) + 1) := by
  induction k with
  | zero => rfl
  | succ k ih =>
    have hk1 : ((2 * k : Nat) : Int) ≤ INT_MAX := by
      simp only [INT_MAX] at *; push_cast at *; omega
    have h2 : 2 * (k + 1) = 2 * k + 1 + 1 := by omega
    have hodd : Chain_V2_filter (1 + ((2 * k : Nat) : Int)) = false := by
      rw [Chain_V2_filter_of_nonneg (by omega)]
      simp only [decide_eq_false_iff_not]; push_cast; omega
    have heven : Chain_V2_filter (1 + ((2 * k + 1 : Nat) : Int)) = true := by
      rw [Chain_V2_filter_of_nonneg (by omega)]
      simp only [decide_eq_true_eq]; push_cast; omega
    have hhalf : Chain_V2_map (1 + ((2 * k + 1 : Nat) : Int)) = (k : Int) + 1 := by
      rw [Chain_V2_map_of_nonneg (by omega) (by simp only [INT_MAX] at *; push_cast at *; omega)]
      push_cast; omega
    rw [h2, List.range_succ, List.range_succ, List.range_succ (n := k)]
    simp only [List.map_append, List.filter_append, List.map_cons, List.map_nil,
      List.filter_cons, List.filter_nil, hodd, heven, ih hk1, hhalf, if_true,
      Bool.false_eq_true, if_false, List.append_nil]

end uutils.data_processing

/-! ## Digits of a string literal -/

namespace uutils.data_processing

open detail

/-- The predicate of `Chain_V3` keeps the digit characters of a string literal and drops
its terminating NUL. -/
theorem filter_string_literal (text : List Int) (hd : ∀ c ∈ text, 48 ≤ c ∧ c ≤ 57) :
    (string_literal text).filter Chain_V3_filter = text := by
  have hall : text.filter Chain_V3_filter = text :=
    List.filter_eq_self.2 fun c hc => by simp [Chain_V3_filter, (hd c hc).1]
  simp [string_literal, List.filter_append, hall, Chain_V3_filter]

/-- On digit characters the function of `Chain_V3` is the numeric value of the digit. -/
theorem map_digits (text : List Int) (hd : ∀ c ∈ text, 48 ≤ c ∧ c ≤ 57) :
    text.map Chain_V3_map = text.map (fun c => c - 48) := by
  refine List.map_congr_left fun c hc => ?_
  have := hd c hc
  apply wrapInt_of_bounds <;> simp only [INT_MIN, INT_MAX] <;> omega

/-- The partial sums of non-negative numbers lie between 0 and the whole sum. -/
theorem take_sum_bounds (L : List Int) (h0 : ∀ x ∈ L, 0 ≤ x) (k : Nat) :
    0 ≤ (L.take k).sum ∧ (L.take k).sum ≤ L.sum := by
  have htake : 0 ≤ (L.take k).sum :=
    List.sum_nonneg fun x hx => h0 x (List.mem_of_mem_take hx)
  have hdrop : 0 ≤ (L.drop k).sum :=
    List.sum_nonneg fun x hx => h0 x (List.mem_of_mem_drop hx)
  have hsum : L.sum = (L.take k).sum + (L.drop k).sum := by
    rw [← List.sum_append, List.take_append_drop]
  exact ⟨htake, by omega⟩

end uutils.data_processing

/-! ## The properties of chained views -/

namespace uutils.data_processing

open detail

/-- C11: for every finite source `S` and all non-negative `a`, `b`, materialising
`Range::from(S) > skip(a) > take(b) > to_vector()` is `take(b)` applied to the
materialisation of `Range::from(S) > skip(a)`, that is the elements of `S` at the
indices `i` with `a ≤ i < min(a + b, len(S))`, in order. -/
theorem skip_take_to_vector {α : Type} (S : List α) (a b : Int) (fuel : Nat) (ha : 0 ≤ a)
    (hb : 0 ≤ b) (hf : S.length < fuel) :
    ∃ M L, operator_gt (operator_gt (Range.from S) (skip a)) (to_vector fuel) = Outcome.ok M ∧
      operator_gt (operator_gt (operator_gt (Range.from S) (skip a)) (take b)) (to_vector fuel)
        = Outcome.ok L ∧
      L = M.take b.toNat ∧
      (L.length : Int) = min (a + b) (S.length : Int) - min a (S.length : Int) ∧
      (∀ i : Nat, a + (i : Int) < min (a + b) (S.length : Int) → L[i]? = S[a.toNat + i]?) ∧
      (∀ (β : Type) (f : α → β),
        operator_gt (operator_gt (operator_gt (operator_gt (Range.from S) (skip a)) (take b))
          (map f)) (to_vector fuel) = Outcome.ok (L.map f)) := by
  have hL : to_vector_impl fuel (TTake (TSkip (Range.from S) a) b)
      = Outcome.ok ((S.drop a.toNat).take b.toNat) := by
    have hlen : ((S.drop a.toNat).take b.toNat).length < fuel := by
      rw [List.length_take, List.length_drop]; omega
    exact to_vector_impl_of_lists (lists_take_skip_from S a b) hlen
  refine ⟨S.drop a.toNat, (S.drop a.toNat).take b.toNat, ?_, hL, rfl, ?_, ?_, ?_⟩
  · have hlen : (S.drop a.toNat).length < fuel := by
      rw [List.length_drop]; omega
    exact to_vector_impl_of_lists (lists_skip (lists_from S) a) hlen
  · rw [List.length_take, List.length_drop]
    omega
  · intro i hi
    rw [List.getElem?_take_of_lt (by omega), List.getElem?_drop]
  · intro β f
    show to_vector_impl fuel (TMap (TTake (TSkip (Range.from S) a) b) f) = _
    rw [to_vector_impl_map, hL]
    rfl

/-- The test `Chain_V1` of the repository: `skip(1) > take(3)` over `{1, 2, 3, 4, 5}` is
`{2, 3, 4}`, whose squares are `{4, 9, 16}`. -/
theorem skip_take_to_vector_witness :
    operator_gt (operator_gt (operator_gt (Range.from ([1, 2, 3, 4, 5] : List Int)) (skip 1))
      (take 3)) (to_vector 6) = Outcome.ok [2, 3, 4] ∧
    operator_gt (operator_gt (operator_gt (operator_gt (Range.from ([1, 2, 3, 4, 5] : List Int))
      (skip 1)) (take 3)) (map Chain_V1_map)) (to_vector 6) = Outcome.ok [4, 9, 16] := by
  obtain ⟨M, L, hM, hL, hLM, _, _, hmap⟩ :=
    skip_take_to_vector ([1, 2, 3, 4, 5] : List Int) 1 3 6 (by decide) (by decide) (by decide)
  have hM2 : M = [2, 3, 4, 5] := by
    have : Outcome.ok M = Outcome.ok ([2, 3, 4, 5] : List Int) := hM.symm.trans (by decide)
    exact Outcome.ok.inj this
  subst hM2
  subst hLM
  exact ⟨hL, hmap Int Chain_V1_map⟩

/-- C12: for every `n ≥ 0` whose double is a value of `int` (as the count passed to
`range` must be), `range(1, 2n) > filter(x % 2 == 0) > map(x / 2) > to_vector()` gives
exactly the list `1, 2, ..., n`. -/
theorem range_filter_map_to_vector (n : Int) (fuel1 fuel2 : Nat) (hn : 0 ≤ n)
    (hmax : 2 * n ≤ INT_MAX) (h1 : (2 * n).toNat < fuel1) (h2 : n.toNat < fuel2) :
    ∃ L, operator_gt (operator_gt (operator_gt (range 1 (2 * n)) (filter fuel1 Chain_V2_filter))
          (map Chain_V2_map)) (to_vector fuel2) = Outcome.ok L ∧
      L = (List.range n.toNat).map (fun i : Nat => (i : Int) + 1) ∧
      (L.length : Int) = n ∧
      (∀ i : Nat, (i : Int) < n → L[i]? = some ((i : Int) + 1)) := by
  have hn2 : (2 * n).toNat = 2 * n.toNat := by omega
  have hcast : ((2 * n.toNat : Nat) : Int) ≤ INT_MAX := by
    simp only [INT_MAX] at *; push_cast; omega
  have hl := lists_range 1 (2 * n) (by decide) (by omega)
    (by simp only [INT_MAX] at *; omega)
  have hlf := lists_filter Chain_V2_filter hl (by simpa using h1)
  have hlm := lists_map Chain_V2_map hlf
  rw [hn2, halves_of_evens n.toNat hcast] at hlm
  refine ⟨_, to_vector_impl_of_lists hlm (by simpa using h2), rfl, ?_, ?_⟩
  · simp only [List.length_map, List.length_range]
    omega
  · intro i hi
    have hi2 : i < n.toNat := by omega
    simp [List.getElem?_map, List.getElem?_range hi2]

/-- The test `Chain_V2` of the repository: `n = 5`, the integers `1 .. 10`. -/
theorem range_filter_map_to_vector_witness :
    operator_gt (operator_gt (operator_gt (range 1 10) (filter 11 Chain_V2_filter))
      (map Chain_V2_map)) (to_vector 6) = Outcome.ok [1, 2, 3, 4, 5] := by
  obtain ⟨L, h, hL, _⟩ :=
    range_filter_map_to_vector 5 11 6 (by decide) (by decide) (by decide) (by decide)
  rw [hL] at h
  exact h

/-- C13: for every text of decimal digit characters, adopted by `Range::from` as the
array of a string literal (the characters and the terminating NUL),
`Range::from(text) > filter(x >= '0') > map(x - '0') > sum()` is the sum of the numeric
values of the digits, added in `int`: it is their mathematical sum whenever that is a
value of `int`. -/
theorem digits_sum (text : List Int) (fuel1 fuel2 : Nat)
    (hd : ∀ c ∈ text, 48 ≤ c ∧ c ≤ 57) (h1 : text.length + 1 < fuel1)
    (h2 : text.length < fuel2) :
    ∃ r, operator_gt (operator_gt (operator_gt (Range.from (string_literal text))
          (filter fuel1 Chain_V3_filter)) (map Chain_V3_map)) (sum fuel2) = Outcome.ok r ∧
      r = (text.map (fun c => c - 48)).foldl int_add 0 ∧
      ((text.map (fun c => c - 48)).sum ≤ INT_MAX → r = (text.map (fun c => c - 48)).sum) := by
  have hl := lists_map Chain_V3_map
    (lists_filter Chain_V3_filter (lists_from (string_literal text))
      (by simpa [string_literal] using h1))
  rw [filter_string_literal text hd, map_digits text hd] at hl
  have hv := to_vector_impl_of_lists hl (by simpa using h2)
  refine ⟨_, ?_, rfl, ?_⟩
  · show sum_impl fuel2
      (TMap (TFilter fuel1 (Range.from (string_literal text)) Chain_V3_filter) Chain_V3_map)
      0 int_add = _
    simp only [sum_impl]
    rw [forEach_of_to_vector_impl hv, foldExit_add]
    rfl
  · intro hsum
    have h0 : ∀ x ∈ text.map (fun c => c - 48), (0 : Int) ≤ x := by
      intro x hx
      obtain ⟨c, hc, rfl⟩ := List.mem_map.1 hx
      have := hd c hc
      omega
    rw [foldl_int_add_of_bounds _ 0, zero_add]
    intro k _
    have := take_sum_bounds _ h0 k
    simp only [INT_MIN, INT_MAX] at *
    omega

/-- The test `Chain_V3` of the repository: the literal `"12345"` (codes 49 .. 53 and the
NUL) sums to 15. -/
theorem digits_sum_witness :
    operator_gt (operator_gt (operator_gt (Range.from (string_literal [49, 50, 51, 52, 53]))
      (filter 7 Chain_V3_filter)) (map Chain_V3_map)) (sum 6) = Outcome.ok 15 := by
  obtain ⟨r, h, _, hr⟩ :=
    digits_sum [49, 50, 51, 52, 53] 7 6 (by decide) (by decide) (by decide)
  rw [hr (by decide)] at h
  exact h

end uutils.data_processing

/-! ## Stepping a filter position backward -/

namespace uutils.data_processing

open detail

/-- Reading at an offset inside the container gives a value. -/
theorem from_deref_of_mem {α : Type} (S : List α) (it : Int) (h0 : 0 ≤ it)
    (hlt : it < S.length) : ∃ x, (Range.from S).deref it = Outcome.ok x := by
  obtain ⟨i, rfl⟩ := Int.eq_ofNat_of_zero_le h0
  have hi : i < S.length := by omega
  exact ⟨S[i], from_deref_cast S i hi⟩

/-- On an element that satisfies the predicate, `reverse()` does not move. -/
theorem reverse_on_kept {α : Type} (S : List α) (p : α → Bool) (fuel it : Nat) (e b : Int)
    (x : α) (hx : S[it]? = some x) (hp : p x = true) :
    TFilter.reverse (Range.from S) p (fuel + 1) ⟨(it : Int), e, b⟩
      = Outcome.ok ⟨(it : Int), e, b⟩ := by
  have hd : (Range.from S).deref (it : Int) = Outcome.ok x := by simp [Range.from, hx]
  simp only [TFilter.reverse, hd, Outcome.bind_ok, hp]
  by_cases hne : (Range.from S).ne (it : Int) b = true <;> simp [hne]

/-- Whatever `reverse()` returns lies between the cached upstream begin and the position
it started from, and has the same cached bounds. -/
theorem reverse_bounds {α : Type} (S : List α) (p : α → Bool) (e b : Int) :
    ∀ (fuel : Nat) (it : Int) (r : TFilter.Iterator Int), b ≤ it →
      TFilter.reverse (Range.from S) p fuel ⟨it, e, b⟩ = Outcome.ok r →
      b ≤ r.it ∧ r.it ≤ it ∧ r.end_ = e ∧ r.begin = b := by
  intro fuel
  induction fuel with
  | zero => intro it r _ h; simp [TFilter.reverse] at h
  | succ n ih =>
    intro it r hb h
    simp only [TFilter.reverse] at h
    by_cases hne : (Range.from S).ne it b = true
    · simp only [hne, if_true] at h
      obtain ⟨x, _, h⟩ := Outcome.bind_eq_ok h
      by_cases hp : p x = true
      · simp only [hp, Bool.not_true, Bool.false_eq_true, if_false] at h
        have hr : r = ⟨it, e, b⟩ := (Outcome.ok.inj h).symm
        subst hr
        exact ⟨hb, le_refl _, rfl, rfl⟩
      · simp only [hp, Bool.not_false, if_true] at h
        obtain ⟨it1, hdec, hrest⟩ := Outcome.bind_eq_ok h
        have hitb : it ≠ b := by simpa [from_ne] using hne
        have hit1 : it1 = it - 1 := by
          rw [from_dec] at hdec
          exact (Outcome.ok.inj hdec).symm
        subst hit1
        obtain ⟨h1, h2, h3, h4⟩ := ih (it - 1) r (by omega) hrest
        exact ⟨h1, by omega, h3, h4⟩
    · simp only [hne] at h
      have hr : r = ⟨it, e, b⟩ := by simpa using h.symm
      subst hr
      exact ⟨hb, le_refl _, rfl, rfl⟩

/-- From a position on an element, `reverse()` returns a position as soon as the fuel
exceeds the distance to the cached upstream begin. -/
theorem reverse_returns {α : Type} (S : List α) (p : α → Bool) (e b : Int) (hb0 : 0 ≤ b) :
    ∀ (fuel : Nat) (it : Int), b ≤ it → it < S.length → it - b < fuel →
      ∃ r, TFilter.reverse (Range.from S) p fuel ⟨it, e, b⟩ = Outcome.ok r := by
  intro fuel
  induction fuel with
  | zero => intro it _ _ h; omega
  | succ n ih =>
    intro it hb hlt hf
    obtain ⟨x, hd⟩ := from_deref_of_mem S it (by omega) hlt
    simp only [TFilter.reverse, hd, Outcome.bind_ok]
    by_cases hne : (Range.from S).ne it b = true
    · simp only [hne, if_true]
      by_cases hp : p x = true
      · exact ⟨⟨it, e, b⟩, by simp [hp]⟩
      · have hitb : it ≠ b := by simpa [from_ne] using hne
        simp only [hp, Bool.not_false, if_true, from_dec, Outcome.bind_ok]
        exact ih (it - 1) (by omega) (by omega) (by push_cast at hf; omega)
    · exact ⟨⟨it, e, b⟩, by simp [hne]⟩

end uutils.data_processing

/-! ## Lemmas on the storage of `StaticVector` -/

namespace uutils

namespace StaticVector

/-- Reading a slot after a write to the storage. -/
theorem ptr_set {T : Type} {Capacity : Nat} (data : List (Option T)) (n m i j : Nat)
    (x : Option T) :
    (StaticVector.mk (data.set i x) n : StaticVector T Capacity).ptr j
      = if i = j then (if i < data.length then x else Option.none)
        else (StaticVector.mk data m : StaticVector T Capacity).ptr j := by
  simp only [ptr, List.getElem?_set]
  by_cases hij : i = j
  · subst hij
    by_cases hi : i < data.length <;> simp [hi]
  · simp [hij]

/-- A successful `emplace_back` keeps the state valid. -/
theorem valid_emplace_back {T : Type} {Capacity : Nat} (self : StaticVector T Capacity)
    (value : T) (hv : self.Valid) : (self.emplace_back value).1.Valid := by
  obtain ⟨hcap, hlen, hsize, hlive⟩ := hv
  by_cases h : self._size ≥ Capacity
  · simpa [emplace_back, h] using ⟨hcap, hlen, hsize, hlive⟩
  · have hlt : self._size < Capacity := by omega
    simp only [emplace_back, h, if_false]
    refine ⟨hcap, by simpa using hlen, by simp only []; omega, ?_⟩
    intro i hi
    rw [ptr_set self._data (self._size + 1) self._size self._size i (some value)]
    by_cases hi2 : self._size = i
    · simp [hi2.symm, hlen, hlt]
    · simp only [hi2, if_false]
      exact hlive i (by simp only [] at hi; omega)

/-- The loop of the initializer-list constructor appends the list to the objects
already stored, as long as the capacity suffices. -/
theorem ctor_init_loop {T : Type} {Capacity : Nat} (init : List T) :
    ∀ (self : StaticVector T Capacity), self._data.length = Capacity →
      self._size + init.length ≤ Capacity →
      ∃ v : StaticVector T Capacity, ctor_init.loop init self = Result.ok v ∧
        v._data.length = Capacity ∧ v._size = self._size + init.length ∧
        (∀ i, i < self._size → v.ptr i = self.ptr i) ∧
        (∀ j, j < init.length → v.ptr (self._size + j) = init[j]?) := by
  induction init with
  | nil =>
    intro self hlen _
    exact ⟨self, rfl, hlen, rfl, fun _ _ => rfl, fun j hj => by simp at hj⟩
  | cons a rest ih =>
    intro self hlen hcap
    have hlt : ¬ self._size ≥ Capacity := by simp at hcap; omega
    obtain ⟨v, hv, hvlen, hvsize, hvold, hvnew⟩ :=
      ih ⟨self._data.set self._size (some a), self._size + 1⟩ (by simpa using hlen)
        (by simp at hcap ⊢; omega)
    refine ⟨v, by simp [ctor_init.loop, emplace_back, hlt, hv], hvlen,
      by simp at hvsize ⊢; omega, ?_, ?_⟩
    · intro i hi
      rw [hvold i (by simp only []; omega),
        ptr_set self._data (self._size + 1) self._size self._size i (some a)]
      have : self._size ≠ i := by omega
      simp [this]
    · intro j hj
      cases j with
      | zero =>
        rw [Nat.add_zero, hvold self._size (by simp only []; omega),
          ptr_set self._data (self._size + 1) self._size self._size self._size (some a)]
        have : self._size < self._data.length := by omega
        simp [this]
      | succ j =>
        have := hvnew j (by simpa using hj)
        simp only [] at this
        rw [List.getElem?_cons_succ, ← this]
        congr 1
        omega

end StaticVector

end uutils

/-! ## The loop of `erase` -/

namespace uutils

namespace StaticVector

/-- One turn of the loop keeps the number of slots. -/
theorem erase_step_length {T : Type} (d : List (Option T)) (a : Nat) :
    (erase.step d a).length = d.length := by
  simp [erase.step]

/-- One turn of the loop moves the content of slot `a + 1` to slot `a`, empties slot
`a + 1` and leaves the other slots alone. -/
theorem erase_step_getElem? {T : Type} (d : List (Option T)) (a j : Nat)
    (ha : a + 1 < d.length) :
    (erase.step d a)[j]? = if j = a then d[a + 1]? else if j = a + 1 then some Option.none
      else d[j]? := by
  have ha0 : a < d.length := by omega
  have hnext : d[a + 1]? = some d[a + 1] := List.getElem?_eq_getElem ha
  simp only [erase.step, List.getElem?_set, List.length_set, ha, ha0, if_true, hnext,
    Option.join]
  by_cases h1 : j = a
  · subst h1
    simp
  · by_cases h2 : j = a + 1
    · subst h2
      simp
    · have h3 : ¬ a + 1 = j := fun h => h2 h.symm
      have h4 : ¬ a = j := fun h => h1 h.symm
      simp [h1, h2, h3, h4]

/-- The loop of `erase`, started on an empty slot `a` and run for `k` turns, keeps the
number of slots. -/
theorem erase_loop_length {T : Type} :
    ∀ (k a : Nat) (d : List (Option T)),
      ((List.range' a k).foldl erase.step d).length = d.length := by
  intro k
  induction k with
  | zero => intro a d; rfl
  | succ k ih =>
    intro a d
    rw [List.range'_succ, List.foldl_cons, ih, erase_step_length]

/-- The loop of `erase`, started on an empty slot `a` and run for `k` turns: the slots
`a .. a + k - 1` receive the content of their right neighbour, slot `a + k` is left
empty, and the other slots are left alone. -/
theorem erase_loop_getElem? {T : Type} :
    ∀ (k a : Nat) (d : List (Option T)), a + k < d.length → d[a]? = some Option.none →
      ∀ j, ((List.range' a k).foldl erase.step d)[j]?
        = if j < a then d[j]? else if j < a + k then d[j + 1]?
          else if j = a + k then some Option.none else d[j]? := by
  intro k
  induction k with
  | zero =>
    intro a d _ hole j
    simp only [List.range'_zero, List.foldl_nil, Nat.add_zero]
    by_cases h1 : j < a
    · simp [h1]
    · by_cases h2 : j = a
      · subst h2
        simp [hole]
      · simp [h1, h2]
  | succ k ih =>
    intro a d hlen _ j
    have ha : a + 1 < d.length := by omega
    rw [List.range'_succ, List.foldl_cons,
      ih (a + 1) (erase.step d a) (by rw [erase_step_length]; omega)
        (by rw [erase_step_getElem? d a (a + 1) ha]; simp) j]
    rw [erase_step_getElem? d a j ha, erase_step_getElem? d a (j + 1) ha]
    by_cases h1 : j < a
    · have : j < a + 1 := by omega
      have h2 : j ≠ a := by omega
      have h3 : j ≠ a + 1 := by omega
      simp [h1, this, h2, h3]
    · by_cases h2 : j = a
      · subst h2
        simp
      · have h3 : ¬ j < a + 1 := by omega
        have h4 : j + 1 ≠ a := by omega
        have h5 : j + 1 ≠ a + 1 := by omega
        simp only [h1, h2, h3, h4, h5, if_false]
        by_cases h6 : j < a + 1 + k
        · have : j < a + (k + 1) := by omega
          simp [h6, this]
        · have h7 : ¬ j < a + (k + 1) := by omega
          simp only [h6, h7, if_false]
          by_cases h8 : j = a + 1 + k
          · have : j = a + (k + 1) := by omega
            rw [if_pos h8, if_pos this]
          · have h9 : ¬ j = a + (k + 1) := by omega
            have h10 : j ≠ a + 1 := by omega
            simp [h8, h9, h10]

/-- The storage after a successful `erase` at `index`. -/
theorem erase_data_getElem? {T : Type} (data : List (Option T)) (size index : Nat)
    (hidx : index < size) (hsize : size ≤ data.length) (j : Nat) :
    ((List.range' index (size - 1 - index)).foldl erase.step (data.set index Option.none))[j]?
      = if j < index then data[j]? else if j + 1 < size then data[j + 1]?
        else if j + 1 = size then some Option.none else data[j]? := by
  have hhole : (data.set index Option.none)[index]? = some Option.none := by
    simp [List.getElem?_set]; omega
  rw [erase_loop_getElem? (size - 1 - index) index (data.set index Option.none)
    (by rw [List.length_set]; omega) hhole j]
  by_cases h1 : j < index
  · have : index ≠ j := by omega
    simp [h1, List.getElem?_set, this]
  · by_cases h2 : j + 1 < size
    · have h3 : j < index + (size - 1 - index) := by omega
      have h4 : index ≠ j + 1 := by omega
      simp [h1, h2, h3, List.getElem?_set, h4]
    · have h3 : ¬ j < index + (size - 1 - index) := by omega
      by_cases h5 : j + 1 = size
      · have : j = index + (size - 1 - index) := by omega
        rw [if_neg h1, if_neg h3, if_pos this, if_neg h1, if_neg h2, if_pos h5]
      · have h6 : ¬ j = index + (size - 1 - index) := by omega
        have h7 : index ≠ j := by omega
        simp [h1, h2, h3, h5, h6, List.getElem?_set, h7]

end StaticVector

end uutils

/-! ## The properties of `StaticVector` -/

namespace uutils

namespace StaticVector

/-- C14: `push_back` / `emplace_back` on a `StaticVector<T, Capacity>` signals
capacity-exceeded (`std::length_error`) if and only if `size() >= Capacity` before the
call, and then leaves the size and all stored elements unchanged; otherwise it increases
the size by exactly 1, stores the new value at index `size() - 1` (so `back()` returns
it) and leaves every previously stored element unchanged. -/
theorem emplace_back_spec {T : Type} {Capacity : Nat} (self : StaticVector T Capacity)
    (value : T) (hv : self.Valid) :
    ((self.emplace_back value).2 = Result.throws Exception.length_error ↔
      self.size ≥ Capacity) ∧
    ((self.push_back value).2 = Result.throws Exception.length_error ↔
      self.size ≥ Capacity) ∧
    (self.push_back value).1 = (self.emplace_back value).1 ∧
    (self.size ≥ Capacity → (self.emplace_back value).1 = self) ∧
    (self.size < Capacity →
      (self.emplace_back value).2 = Result.ok value ∧
      (self.push_back value).2 = Result.ok () ∧
      (self.emplace_back value).1.size = self.size + 1 ∧
      (self.emplace_back value).1.operator_subscript
        ((self.emplace_back value).1.size - 1) = Result.ok value ∧
      (self.emplace_back value).1.back = Result.ok value ∧
      (∀ i, i < self.size →
        (self.emplace_back value).1.operator_subscript i = self.operator_subscript i) ∧
      (self.emplace_back value).1.Valid) := by
  obtain ⟨hcap, hlen, hsize, hlive⟩ := hv
  by_cases h : self._size ≥ Capacity
  · have hnlt : ¬ self._size < Capacity := by omega
    simp [emplace_back, push_back, size, h, hnlt]
  · have hlt : self._size < Capacity := by omega
    have hnew : (StaticVector.mk (self._data.set self._size (some value)) (self._size + 1)
        : StaticVector T Capacity).ptr self._size = some value := by
      rw [ptr_set self._data (self._size + 1) self._size self._size self._size (some value)]
      simp [hlen, hlt]
    have hsub : size_t_sub (self._size + 1) 1 = self._size := by
      simp only [size_t_sub, SIZE_MAX] at *
      omega
    refine ⟨by simp [emplace_back, size, h], by simp [emplace_back, push_back, size, h],
      by simp [emplace_back, push_back, h], fun hge => absurd hge h, fun _ => ?_⟩
    refine ⟨by simp [emplace_back, h], by simp [emplace_back, push_back, h],
      by simp [emplace_back, size, h], ?_, ?_, ?_, ?_⟩
    · simp [emplace_back, size, h, operator_subscript, hnew]
    · simp [emplace_back, h, back, operator_subscript, hsub, hnew]
    · intro i hi
      simp only [emplace_back, h, if_false, operator_subscript]
      rw [ptr_set self._data (self._size + 1) self._size self._size i (some value)]
      have : self._size ≠ i := by simp only [size] at hi; omega
      simp [this]
    · exact valid_emplace_back self value ⟨hcap, hlen, hsize, hlive⟩

/-- The end of the test `Modify` of the repository: a vector of capacity 5 holding
`20, 2, 3, 4, 5` refuses a sixth element and is left as it was; an empty one accepts
`10` as its element 0. -/
theorem emplace_back_spec_witness :
    ((StaticVector.mk [some 20, some 2, some 3, some 4, some 5] 5 : StaticVector Int 5).push_back
      6).2 = Result.throws Exception.length_error ∧
    ((StaticVector.mk [some 20, some 2, some 3, some 4, some 5] 5 : StaticVector Int 5).emplace_back
      6).1 = StaticVector.mk [some 20, some 2, some 3, some 4, some 5] 5 ∧
    ((ctor : StaticVector Int 5).emplace_back 10).1.back = Result.ok 10 := by
  have hfull := emplace_back_spec
    (StaticVector.mk [some 20, some 2, some 3, some 4, some 5] 5 : StaticVector Int 5) 6
    ⟨by decide, by decide, by decide, by decide⟩
  have hempty := emplace_back_spec (ctor : StaticVector Int 5) 10
    ⟨by decide, by decide, by decide, by decide⟩
  exact ⟨hfull.2.1.2 (by decide), hfull.2.2.2.1 (by decide),
    (hempty.2.2.2.2 (by decide)).2.2.2.2.1⟩

/-- C15: `erase(pos)` signals out-of-range (`std::out_of_range`) if and only if the
index of `pos` is `>= size()`, and then leaves the vector unchanged; otherwise it removes
exactly the element at that index, shifts every later element one slot toward the front
in the same order, leaves the earlier elements unchanged, decreases the size by exactly
1 and returns the position with the same index. -/
theorem erase_spec {T : Type} {Capacity : Nat} (self : StaticVector T Capacity) (pos : Int)
    (hv : self.Valid) :
    ((self.erase pos).2 = Result.throws Exception.out_of_range ↔
      static_cast_size_type pos ≥ self.size) ∧
    (static_cast_size_type pos ≥ self.size → (self.erase pos).1 = self) ∧
    (0 ≤ pos → pos ≤ self.end_ → (static_cast_size_type pos : Int) = pos) ∧
    (static_cast_size_type pos < self.size →
      (self.erase pos).2 = Result.ok (static_cast_size_type pos : Int) ∧
      (self.erase pos).1.size + 1 = self.size ∧
      (∀ i, i < static_cast_size_type pos →
        (self.erase pos).1.operator_subscript i = self.operator_subscript i) ∧
      (∀ i, static_cast_size_type pos ≤ i → i + 1 < self.size →
        (self.erase pos).1.operator_subscript i = self.operator_subscript (i + 1)) ∧
      (self.erase pos).1._data.take (self.erase pos).1._size
        = (self._data.take self._size).eraseIdx (static_cast_size_type pos) ∧
      (self.erase pos).1.Valid) := by
  obtain ⟨hcap, hlen, hsize, hlive⟩ := hv
  refine ⟨?_, ?_, ?_, ?_⟩
  · by_cases h : static_cast_size_type pos ≥ self._size <;> simp [erase, size, h]
  · intro h
    simp only [size] at h
    simp [erase, h]
  · intro h0 hle
    have hs : (self._size : Int) ≤ (SIZE_MAX : Int) := by exact_mod_cast le_trans hsize hcap
    simp only [end_] at hle
    simp only [static_cast_size_type, SIZE_MAX] at *
    omega
  · intro hlt
    simp only [size] at hlt
    have hnge : ¬ static_cast_size_type pos ≥ self._size := by omega
    have hget := erase_data_getElem? self._data self._size (static_cast_size_type pos) hlt
      (by omega)
    have hptr : ∀ j, (self.erase pos).1.ptr j
        = if j < static_cast_size_type pos then self.ptr j
          else if j + 1 < self._size then self.ptr (j + 1)
          else if j + 1 = self._size then Option.none else self.ptr j := by
      intro j
      simp only [erase, sub_zero, hnge, if_false, ptr, hget j]
      split_ifs <;> simp
    refine ⟨by simp [erase, hnge], by simp [erase, hnge, size]; omega, ?_, ?_, ?_, ?_⟩
    · intro i hi
      simp only [operator_subscript, hptr i, hi, if_true]
    · intro i hi hi2
      have h1 : ¬ i < static_cast_size_type pos := by omega
      simp only [size] at hi2
      simp only [operator_subscript, hptr i, h1, hi2, if_true, if_false]
    · simp only [erase, sub_zero, hnge, if_false]
      apply List.ext_getElem?
      intro j
      rw [List.getElem?_take, List.getElem?_eraseIdx, List.getElem?_take, List.getElem?_take,
        hget j]
      by_cases h1 : j < static_cast_size_type pos
      · have h2 : j < self._size - 1 := by omega
        have h3 : j < self._size := by omega
        simp [h1, h2, h3]
      · by_cases h2 : j + 1 < self._size
        · have h3 : j < self._size - 1 := by omega
          simp [h1, h2, h3]
        · have h3 : ¬ j < self._size - 1 := by omega
          simp [h1, h2, h3]
    · refine ⟨hcap, ?_, ?_, ?_⟩
      · simp only [erase, sub_zero, hnge, if_false]
        rw [erase_loop_length, List.length_set]
        exact hlen
      · simp only [erase, sub_zero, hnge, if_false]
        omega
      · intro i hi
        have hi2 : i + 1 < self._size := by
          simp only [erase, sub_zero, hnge, if_false] at hi
          omega
        rw [hptr i]
        by_cases h1 : i < static_cast_size_type pos
        · simp only [h1, if_true]
          exact hlive i (by omega)
        · simp only [h1, hi2, if_true, if_false]
          exact hlive (i + 1) hi2

/-- The erasure of the test `Modify` of the repository: erasing at `cbegin()` from a
vector of capacity 5 holding `10, 20` leaves one element, `20`, at the front; erasing
at `cend()` signals out-of-range. -/
theorem erase_spec_witness :
    ((StaticVector.mk [some 10, some 20, Option.none, Option.none, Option.none] 2
      : StaticVector Int 5).erase 0).1.size + 1 = 2 ∧
    ((StaticVector.mk [some 10, some 20, Option.none, Option.none, Option.none] 2
      : StaticVector Int 5).erase 0).1.operator_subscript 0 = Result.ok 20 ∧
    ((StaticVector.mk [some 10, some 20, Option.none, Option.none, Option.none] 2
      : StaticVector Int 5).erase 2).2 = Result.throws Exception.out_of_range := by
  have h0 := erase_spec
    (StaticVector.mk [some 10, some 20, Option.none, Option.none, Option.none] 2
      : StaticVector Int 5) 0 ⟨by decide, by decide, by decide, by decide⟩
  have h2 := erase_spec
    (StaticVector.mk [some 10, some 20, Option.none, Option.none, Option.none] 2
      : StaticVector Int 5) 2 ⟨by decide, by decide, by decide, by decide⟩
  obtain ⟨_, hsz, _, hshift, _⟩ := h0.2.2.2 (by decide)
  exact ⟨hsz, hshift 0 (by decide) (by decide), h2.1.2 (by decide)⟩

/-- C16: `at(index)` signals out-of-range (`std::out_of_range`) if and only if
`index >= size()`; otherwise it returns the element stored at that index.  A vector
built from an initializer list `L` with `len(L) <= Capacity` has `size() == len(L)` and
`at(i) == L[i]` for every `i < len(L)`. -/
theorem at_spec {T : Type} {Capacity : Nat} (L : List T) (hL : L.length ≤ Capacity) :
    (∀ (self : StaticVector T Capacity) (index : Nat),
      (self.at index = Result.throws Exception.out_of_range ↔ index ≥ self.size) ∧
      (index < self.size → self.at index = self.operator_subscript index) ∧
      (self.Valid → index < self.size →
        ∃ x, self.at index = Result.ok x ∧ self.ptr index = some x)) ∧
    ∃ v : StaticVector T Capacity, ctor_init L = Result.ok v ∧ v.size = L.length ∧
      (∀ (i : Nat) (x : T), L[i]? = some x → v.at i = Result.ok x) ∧
      (∀ i : Nat, L.length ≤ i → v.at i = Result.throws Exception.out_of_range) := by
  constructor
  · intro self index
    by_cases h : index ≥ self._size
    · have hnlt : ¬ index < self._size := by omega
      simp [StaticVector.at, size, h, hnlt]
    · have hlt : index < self._size := by omega
      refine ⟨?_, fun _ => by simp [StaticVector.at, h], fun hv _ => ?_⟩
      · simp only [StaticVector.at, size, h, if_false, iff_false]
        simp only [operator_subscript]
        cases self.ptr index <;> simp
      · have hlive := hv.2.2.2 index hlt
        obtain ⟨x, hx⟩ := Option.isSome_iff_exists.1 hlive
        exact ⟨x, by simp [StaticVector.at, h, operator_subscript, hx], hx⟩
  · obtain ⟨v, hv, _, hvsize, _, hvnew⟩ :=
      ctor_init_loop L (ctor : StaticVector T Capacity) (by simp [ctor])
        (by simpa [ctor] using hL)
    have hsize : v._size = L.length := by simpa [ctor] using hvsize
    refine ⟨v, hv, hsize, ?_, ?_⟩
    · intro i x hx
      have hi : i < L.length := (List.getElem?_eq_some_iff.1 hx).1
      have hp : v.ptr i = some x := by
        have := hvnew i hi
        simpa [ctor, hx] using this
      have hge : ¬ i ≥ v._size := by omega
      simp [StaticVector.at, hge, operator_subscript, hp]
    · intro i hi
      have hge : i ≥ v._size := by omega
      simp [StaticVector.at, hge]

/-- The test `ConstructFromInitializerList` of the repository: a vector of capacity 10
built from `{1, 2, 3, 4, 5}` has size 5 and `at(1)` is 2. -/
theorem at_spec_witness :
    ∃ v : StaticVector Int 10, ctor_init [1, 2, 3, 4, 5] = Result.ok v ∧ v.size = 5 ∧
      v.capacity = 10 ∧ v.at 1 = Result.ok 2 ∧
      v.at 5 = Result.throws Exception.out_of_range := by
  obtain ⟨_, v, hv, hsize, hat, hout⟩ := at_spec ([1, 2, 3, 4, 5] : List Int)
    (by decide : ([1, 2, 3, 4, 5] : List Int).length ≤ 10)
  exact ⟨v, hv, hsize, rfl, hat 1 2 rfl, hout 5 (by decide)⟩

end StaticVector

end uutils

/-! ## The properties of backward traversal -/

namespace uutils.data_processing

open detail

/-- C17: the claim is that `operator--` of a filter position first moves the upstream
position one step back and then keeps stepping back while the predicate is false, so
that from an element satisfying `p` one decrement lands on the previous element
satisfying `p`.  The code does not: `operator--` is `reverse()` alone, without the
`--_it` that `operator++` has as `++_it`, and on an element satisfying `p` the loop of
`reverse()` stops at once.  Over `{1, 2, 3, 4, 5}` with `p` = odd, decrementing the
position on `3` (offset 2) leaves it on `3` and not on `1` (offset 0), while
incrementing the position on `1` does move to `3`. -/
theorem filter_dec_does_not_step :
    (∀ fuel : Nat,
      (operator_gt (Range.from ([1, 2, 3, 4, 5] : List Int))
        (filter (fuel + 1) (fun x => x % 2 == 1))).dec ⟨2, 5, 0⟩ = Outcome.ok ⟨2, 5, 0⟩) ∧
    (∀ fuel : Nat,
      (operator_gt (Range.from ([1, 2, 3, 4, 5] : List Int))
        (filter (fuel + 1) (fun x => x % 2 == 1))).dec ⟨2, 5, 0⟩ ≠ Outcome.ok ⟨0, 5, 0⟩) ∧
    (operator_gt (Range.from ([1, 2, 3, 4, 5] : List Int))
      (filter 6 (fun x => x % 2 == 1))).inc ⟨0, 5, 0⟩ = Outcome.ok ⟨2, 5, 0⟩ := by
  have hstay : ∀ fuel : Nat,
      (operator_gt (Range.from ([1, 2, 3, 4, 5] : List Int))
        (filter (fuel + 1) (fun x => x % 2 == 1))).dec ⟨2, 5, 0⟩ = Outcome.ok ⟨2, 5, 0⟩ :=
    fun fuel => by
      have h := reverse_on_kept ([1, 2, 3, 4, 5] : List Int) (fun x => x % 2 == 1) fuel 2 5 0 3
        rfl rfl
      simpa [operator_gt, filter, filter_impl, TFilter] using h
  refine ⟨hstay, fun fuel => ?_, by decide⟩
  rw [hstay fuel]
  decide

/-- C18: a filter position lying within `[upstream-begin, upstream-end]` is never moved
before the upstream begin by `operator--`, however many times it is applied: every
position the decrements return is at or after the upstream begin (and at or before
the position they started from, with the same cached bounds); from a position on an
element they do return one, on any fuel above the distance to the upstream begin. -/
theorem filter_dec_stays_in_range {α : Type} (S : List α) (p : α → Bool) (fuel : Nat)
    (b e it : Int) (hb : b ≤ it) (he : it ≤ e) (hlen : e ≤ S.length) :
    (∀ (k : Nat) (r : TFilter.Iterator Int),
      decTimes (operator_gt (Range.from S) (filter fuel p)) k ⟨it, e, b⟩ = Outcome.ok r →
      b ≤ r.it ∧ r.it ≤ it ∧ r.it ≤ e ∧ r.end_ = e ∧ r.begin = b) ∧
    (0 ≤ b → it < S.length → it - b < fuel →
      ∀ k : Nat, ∃ r,
        decTimes (operator_gt (Range.from S) (filter fuel p)) k ⟨it, e, b⟩ = Outcome.ok r) := by
  have hdec : ∀ self : TFilter.Iterator Int,
      (operator_gt (Range.from S) (filter fuel p)).dec self
        = TFilter.reverse (Range.from S) p fuel self := fun _ => rfl
  have hsafe : ∀ (k : Nat) (it1 : Int) (r : TFilter.Iterator Int), b ≤ it1 →
      decTimes (operator_gt (Range.from S) (filter fuel p)) k ⟨it1, e, b⟩ = Outcome.ok r →
      b ≤ r.it ∧ r.it ≤ it1 ∧ r.end_ = e ∧ r.begin = b := by
    intro k
    induction k with
    | zero =>
      intro it1 r hb1 h
      have hr : r = ⟨it1, e, b⟩ := (Outcome.ok.inj h).symm
      subst hr
      exact ⟨hb1, le_refl _, rfl, rfl⟩
    | succ k ih =>
      intro it1 r hb1 h
      simp only [decTimes, hdec] at h
      obtain ⟨m, hm, hrest⟩ := Outcome.bind_eq_ok h
      obtain ⟨h1, h2, h3, h4⟩ := reverse_bounds S p e b fuel it1 m hb1 hm
      obtain ⟨mit, me, mb⟩ := m
      simp only [] at h1 h2 h3 h4
      subst h3
      subst h4
      obtain ⟨g1, g2, g3, g4⟩ := ih mit r h1 hrest
      exact ⟨g1, by omega, g3, g4⟩
  constructor
  · intro k r h
    obtain ⟨h1, h2, h3, h4⟩ := hsafe k it r hb h
    exact ⟨h1, h2, by omega, h3, h4⟩
  · intro hb0 hlt hf k
    have hlive : ∀ (k : Nat) (it1 : Int), b ≤ it1 → it1 ≤ it →
        ∃ r, decTimes (operator_gt (Range.from S) (filter fuel p)) k ⟨it1, e, b⟩
          = Outcome.ok r := by
      intro k
      induction k with
      | zero => intro it1 _ _; exact ⟨_, rfl⟩
      | succ k ih =>
        intro it1 hb1 hle
        obtain ⟨m, hm⟩ := reverse_returns S p e b hb0 fuel it1 hb1 (by omega) (by omega)
        obtain ⟨h1, h2, h3, h4⟩ := reverse_bounds S p e b fuel it1 m hb1 hm
        obtain ⟨mit, me, mb⟩ := m
        simp only [] at h1 h2 h3 h4
        subst h3
        subst h4
        obtain ⟨r, hr⟩ := ih mit h1 (by omega)
        exact ⟨r, by simp only [decTimes, hdec, hm, Outcome.bind_ok, hr]⟩
    exact hlive k it hb (le_refl _)

/-- Decrementing twice the position on `4` (offset 3) of `{1, 2, 3, 4, 5}` filtered by
odd, with upstream begin at offset 1: the position returned is at offset 3 or before
and not before offset 1. -/
theorem filter_dec_stays_in_range_witness :
    ∃ r, decTimes (operator_gt (Range.from ([1, 2, 3, 4, 5] : List Int))
        (filter 6 (fun x => x % 2 == 1))) 2 ⟨3, 5, 1⟩ = Outcome.ok r ∧
      1 ≤ r.it ∧ r.it ≤ 3 := by
  have h := filter_dec_stays_in_range ([1, 2, 3, 4, 5] : List Int) (fun x => x % 2 == 1)
    6 1 5 3 (by decide) (by decide) (by decide)
  obtain ⟨r, hr⟩ := h.2 (by decide) (by decide) (by decide) 2
  obtain ⟨h1, h2, _⟩ := h.1 2 r hr
  exact ⟨r, hr, h1, h2⟩

/-- C19: the claim is that `Range::from(S) > filter(p) > reverse() > to_vector()`
terminates and gives the reverse of `Range::from(S) > filter(p) > to_vector()`.  The
code does not for any non-empty source: `TReverse::begin()` decrements the filter's
`end()`, whose `reverse()` loop reads `*_it` at the upstream end, one past the last
element, so the materialisation has no defined result.  Over `{1, 2, 3, 4, 5}` with
`p` = odd the forward materialisation is `{1, 3, 5}` and the reversed one is
undefined, not `{5, 3, 1}`. -/
theorem filter_reverse_to_vector_undefined :
    (∀ (α : Type) (a : α) (S : List α) (p : α → Bool) (fuel1 fuel2 : Nat),
      operator_gt (operator_gt (operator_gt (Range.from (a :: S)) (filter (fuel1 + 1) p))
        reverse) (to_vector fuel2) = Outcome.undefined) ∧
    operator_gt (operator_gt (Range.from ([1, 2, 3, 4, 5] : List Int))
      (filter 6 (fun x => x % 2 == 1))) (to_vector 6) = Outcome.ok [1, 3, 5] ∧
    operator_gt (operator_gt (operator_gt (Range.from ([1, 2, 3, 4, 5] : List Int))
      (filter 6 (fun x => x % 2 == 1))) reverse) (to_vector 6) ≠ Outcome.ok [5, 3, 1] := by
  refine ⟨?_, by decide, by decide⟩
  intro α a S p fuel1 fuel2
  have hend : (TFilter (fuel1 + 1) (Range.from (a :: S)) p).end_
      = Outcome.ok ⟨(S.length : Int) + 1, (S.length : Int) + 1, 0⟩ := by
    simp [TFilter, Range.from, std_begin, std_end, TFilter.advance]
  have hdec : (TFilter (fuel1 + 1) (Range.from (a :: S)) p).dec
      ⟨(S.length : Int) + 1, (S.length : Int) + 1, 0⟩ = Outcome.undefined := by
    have hne0 : ¬ (S.length : Int) + 1 = 0 := by omega
    have hnn : (0 : Int) ≤ (S.length : Int) + 1 := by omega
    have hidx : ((S.length : Int) + 1).toNat = S.length + 1 := by omega
    simp [TFilter, Range.from, TFilter.reverse, hne0, hnn, hidx]
  have hbegin : (TReverse (TFilter (fuel1 + 1) (Range.from (a :: S)) p)).begin
      = Outcome.undefined := by
    simp only [TReverse, hend, Outcome.bind_ok, hdec]
  simp only [operator_gt, filter, filter_impl, reverse, reverse_impl, to_vector, to_vector_impl,
    forEach, hbegin, Outcome.bind_undefined, Outcome.map_undefined]

end uutils.data_processing

/-! ## The invariant of `StaticVector` under its member functions -/

namespace uutils

namespace StaticVector

/-- The default constructor establishes the invariant. -/
theorem invariant_ctor {T : Type} {Capacity : Nat} :
    (ctor : StaticVector T Capacity).Invariant := by
  refine ⟨by simp [ctor], by simp [ctor], ?_⟩
  intro i hi
  simp [ctor] at hi

/-- The vector `push_back` leaves is the one `emplace_back` leaves. -/
theorem push_back_fst {T : Type} {Capacity : Nat} (self : StaticVector T Capacity) (value : T) :
    (self.push_back value).1 = (self.emplace_back value).1 := by
  by_cases h : self._size ≥ Capacity <;> simp [push_back, emplace_back, h]

/-- Both outcomes of `emplace_back`, the exception and the insertion, keep the
invariant. -/
theorem invariant_emplace_back {T : Type} {Capacity : Nat} (self : StaticVector T Capacity)
    (value : T) (hv : self.Invariant) : (self.emplace_back value).1.Invariant := by
  obtain ⟨hlen, hsize, hlive⟩ := hv
  by_cases h : self._size ≥ Capacity
  · simpa [emplace_back, h] using ⟨hlen, hsize, hlive⟩
  · have hlt : self._size < Capacity := by omega
    simp only [emplace_back, h, if_false]
    refine ⟨by simpa using hlen, by simp only []; omega, ?_⟩
    intro i hi
    rw [ptr_set self._data (self._size + 1) self._size self._size i (some value)]
    by_cases hi2 : self._size = i
    · simp [hi2.symm, hlen, hlt]
    · simp only [hi2, if_false]
      exact hlive i (by simp only [] at hi; omega)

/-- Both outcomes of `pop_back`, on an empty and on a non-empty vector, keep the
invariant. -/
theorem invariant_pop_back {T : Type} {Capacity : Nat} (self : StaticVector T Capacity)
    (hv : self.Invariant) : self.pop_back.Invariant := by
  obtain ⟨hlen, hsize, hlive⟩ := hv
  by_cases h : self._size = 0
  · simpa [pop_back, h] using ⟨hlen, hsize, hlive⟩
  · have hne : (self._size == 0) = false := by simpa using h
    simp only [pop_back, hne, Bool.false_eq_true, if_false]
    refine ⟨by simpa using hlen, by simp only []; omega, ?_⟩
    intro i hi
    simp only [] at hi
    rw [ptr_set self._data (self._size - 1) self._size (self._size - 1) i Option.none]
    have hi2 : self._size - 1 ≠ i := by omega
    simp only [hi2, if_false]
    exact hlive i (by omega)

/-- The loop of `clear` keeps the number of slots. -/
theorem clear_loop_length {T : Type} :
    ∀ (n : Nat) (d : List (Option T)),
      ((List.range n).foldl (fun data i => data.set i Option.none) d).length = d.length := by
  intro n
  induction n with
  | zero => intro d; rfl
  | succ n ih =>
    intro d
    rw [List.range_succ, List.foldl_append]
    simp [ih]

/-- After `clear` the invariant holds. -/
theorem invariant_clear {T : Type} {Capacity : Nat} (self : StaticVector T Capacity)
    (hv : self.Invariant) : self.clear.Invariant := by
  obtain ⟨hlen, _, _⟩ := hv
  refine ⟨?_, Nat.zero_le _, ?_⟩
  · simp only [clear]
    rw [clear_loop_length]
    exact hlen
  · intro i hi
    simp [clear] at hi

/-- Both outcomes of `erase`, the exception and the removal, keep the invariant. -/
theorem invariant_erase {T : Type} {Capacity : Nat} (self : StaticVector T Capacity)
    (pos : Int) (hv : self.Invariant) : (self.erase pos).1.Invariant := by
  obtain ⟨hlen, hsize, hlive⟩ := hv
  by_cases hge : static_cast_size_type pos ≥ self._size
  · simpa [erase, hge] using ⟨hlen, hsize, hlive⟩
  · have hlt : static_cast_size_type pos < self._size := by omega
    have hget := erase_data_getElem? self._data self._size (static_cast_size_type pos) hlt
      (by omega)
    have hptr : ∀ j, (self.erase pos).1.ptr j
        = if j < static_cast_size_type pos then self.ptr j
          else if j + 1 < self._size then self.ptr (j + 1)
          else if j + 1 = self._size then Option.none else self.ptr j := by
      intro j
      simp only [erase, sub_zero, hge, if_false, ptr, hget j]
      split_ifs <;> simp
    refine ⟨?_, ?_, ?_⟩
    · simp only [erase, sub_zero, hge, if_false]
      rw [erase_loop_length, List.length_set]
      exact hlen
    · simp only [erase, sub_zero, hge, if_false]
      omega
    · intro i hi
      have hi2 : i + 1 < self._size := by
        simp only [erase, sub_zero, hge, if_false] at hi
        omega
      rw [hptr i]
      by_cases h1 : i < static_cast_size_type pos
      · simp only [h1, if_true]
        exact hlive i (by omega)
      · simp only [h1, hi2, if_true, if_false]
        exact hlive (i + 1) hi2

/-- The initializer-list constructor, when it returns, establishes the invariant. -/
theorem invariant_ctor_init_loop {T : Type} {Capacity : Nat} (init : List T) :
    ∀ (self v : StaticVector T Capacity), self.Invariant →
      ctor_init.loop init self = Result.ok v → v.Invariant := by
  induction init with
  | nil =>
    intro self v hv h
    have : self = v := by simpa [ctor_init.loop] using h
    exact this ▸ hv
  | cons a rest ih =>
    intro self v hv h
    have hnext := invariant_emplace_back self a hv
    by_cases hge : self._size ≥ Capacity
    · simp [ctor_init.loop, emplace_back, hge] at h
    · simp only [ctor_init.loop, emplace_back, hge, if_false] at h
      simp only [emplace_back, hge, if_false] at hnext
      exact ih _ v hnext h

/-- Every call keeps the invariant. -/
theorem invariant_step {T : Type} {Capacity : Nat} (self : StaticVector T Capacity)
    (op : Op T) (hv : self.Invariant) : (self.step op).Invariant := by
  cases op with
  | emplace_back value => exact invariant_emplace_back self value hv
  | push_back value =>
    simp only [step, push_back_fst]
    exact invariant_emplace_back self value hv
  | pop_back => exact invariant_pop_back self hv
  | erase pos => exact invariant_erase self pos hv
  | clear => exact invariant_clear self hv

/-- Every sequence of calls keeps the invariant. -/
theorem invariant_run {T : Type} {Capacity : Nat} (ops : List (Op T)) :
    ∀ (self : StaticVector T Capacity), self.Invariant → (self.run ops).Invariant := by
  induction ops with
  | nil => intro self hv; exact hv
  | cons op rest ih =>
    intro self hv
    exact ih (self.step op) (invariant_step self op hv)

end StaticVector

end uutils

/-! ## The capacity ceiling of `StaticVector` -/

namespace uutils

namespace StaticVector

/-- C21: `StaticVector` has a hard capacity ceiling.  Starting from a constructed vector
(by the default constructor, or by the initializer-list constructor when it returns),
after every sequence of `emplace_back`, `push_back`, `pop_back`, `erase` and `clear`
calls, whether they succeed or signal an error, `0 <= size() <= Capacity` holds,
`capacity()` is `Capacity`, `empty()` holds iff `size() == 0`, and `pop_back` on the
vector when it is empty leaves it unchanged; the storage keeps its `Capacity` slots
with an object in each of the first `size()`. -/
theorem capacity_ceiling {T : Type} {Capacity : Nat} (init : List T)
    (self : StaticVector T Capacity)
    (hc : self = ctor ∨ ctor_init init = Result.ok self) (ops : List (Op T)) :
    0 ≤ (self.run ops).size ∧ (self.run ops).size ≤ Capacity ∧
    (self.run ops).capacity = Capacity ∧
    ((self.run ops).empty = true ↔ (self.run ops).size = 0) ∧
    ((self.run ops).size = 0 → (self.run ops).pop_back = self.run ops) ∧
    (self.run ops).Invariant ∧
    (Capacity ≤ SIZE_MAX → (self.run ops).Valid) := by
  have h0 : self.Invariant := by
    cases hc with
    | inl h => exact h ▸ invariant_ctor
    | inr h => exact invariant_ctor_init_loop init ctor self invariant_ctor h
  have hinv := invariant_run ops self h0
  refine ⟨Nat.zero_le _, hinv.2.1, rfl, by simp [empty, size], ?_, hinv, fun hcap => ⟨hcap, hinv⟩⟩
  intro hz
  simp only [size] at hz
  simp [pop_back, hz]

/-- The test `Modify` of the repository as a sequence of calls on an empty vector of
capacity 5, ending with the sixth `push_back` that throws: the size stays at most 5.
After `clear` the vector is empty and `pop_back` leaves it unchanged.  A vector of
capacity 3 built from `{1, 2}` stays within 3 under two `push_back` calls (the second
throws) and an `erase` out of range. -/
theorem capacity_ceiling_witness :
    ((ctor : StaticVector Int 5).run
      [Op.push_back 10, Op.push_back 20, Op.push_back 30, Op.pop_back, Op.erase 0,
        Op.push_back 2, Op.push_back 3, Op.push_back 4, Op.push_back 5, Op.push_back 6]).size
      ≤ 5 ∧
    ((ctor : StaticVector Int 5).run [Op.push_back 10, Op.clear]).pop_back
      = (ctor : StaticVector Int 5).run [Op.push_back 10, Op.clear] ∧
    ((StaticVector.mk [some 1, some 2, Option.none] 2 : StaticVector Int 3).run
      [Op.push_back 3, Op.push_back 4, Op.erase 7]).size ≤ 3 :=
  ⟨(capacity_ceiling [] (ctor : StaticVector Int 5) (Or.inl rfl)
      [Op.push_back 10, Op.push_back 20, Op.push_back 30, Op.pop_back, Op.erase 0,
        Op.push_back 2, Op.push_back 3, Op.push_back 4, Op.push_back 5, Op.push_back 6]).2.1,
   (capacity_ceiling [] (ctor : StaticVector Int 5) (Or.inl rfl)
      [Op.push_back 10, Op.clear]).2.2.2.2.1 (by decide),
   (capacity_ceiling [1, 2] (StaticVector.mk [some 1, some 2, Option.none] 2 : StaticVector Int 3)
      (Or.inr (by decide)) [Op.push_back 3, Op.push_back 4, Op.erase 7]).2.1⟩

end StaticVector

end uutils

/-! ## Reversing twice -/

namespace uutils.data_processing

open detail

end uutils.data_processing
